import Mathlib

/-!
Verification of the subtitle timing/segmentation/validation core of the
Simora-AI repository (`video-caption-backend/src/utils/srt.js` and the
caption chunking / word-highlight logic of
`video-audio-extractor/src/components/VideoPlayerWithCaptions.jsx`).

Modelling conventions:
* JavaScript strings are modelled as `List Char` (`Str`).
* JavaScript numbers are modelled as exact rationals `ℚ`; IEEE-754 rounding
  is out of scope.  Where `NaN` can arise (the `Number`/`parseInt`
  coercions in `srtTimeToSeconds`) the result type is `Option ℚ` with
  `none` playing the role of `NaN`.  For the word-highlight computation,
  where `Infinity` can also arise, the dedicated type `JSN` is used.
* `Math.floor` is modelled by `Rat.floor` (definitionally equal to
  Mathlib's `⌊·⌋` on `ℚ`, but kernel-computable).
* The regular-expression replacements of `cleanTextForSRT` are modelled by
  explicit scanning functions, each one faithful to the leftmost,
  non-overlapping global-replacement semantics of the corresponding
  JavaScript regex.  JavaScript's `\s` class is modelled by the ASCII
  whitespace characters (space, tab, newline, carriage return), which are
  the only whitespace characters relevant to this code base.
* Loops that advance by a dynamic step are modelled with an explicit fuel
  argument; the fuel chosen in the wrapper is provably sufficient, so the
  fuel-exhausted branch is unreachable for the inputs of interest.
-/

namespace Simora

section Core

attribute [local semireducible] Rat.add Rat.sub Rat.mul Rat.inv

/-- JavaScript strings, modelled as lists of characters. -/
abbrev Str := List Char

/-- Convert a Lean string literal to the `Str` model. -/
def s2l (s : String) : Str := s.data

/-- The ASCII whitespace characters standing in for JavaScript `\s`. -/
def isWsCh (c : Char) : Bool := c = ' ' || c = '\t' || c = '\n' || c = '\r'

/-- The terminal punctuation class `[.!?]` of `cleanTextForSRT`. -/
def isPunctCh (c : Char) : Bool := c = '.' || c = '!' || c = '?'

/-- The ASCII lowercase class `[a-z]`. -/
def isLowerCh (c : Char) : Bool := 'a' ≤ c && c ≤ 'z'

/-- ASCII uppercasing, as applied by `toUpperCase()` to an `[a-z]` match. -/
def toUpperCh (c : Char) : Char :=
  if isLowerCh c then Char.ofNat (c.toNat - 32) else c

/-- `String.prototype.split(sep)` with a single-character separator. -/
def splitOnChar (sep : Char) : Str → List Str
  | [] => [[]]
  | c :: rest =>
    match splitOnChar sep rest with
    | [] => [[]]
    | h :: t => if c = sep then [] :: h :: t else (c :: h) :: t

/-- `String.prototype.split('\n\n')`: split on the two-character
separator, leftmost and non-overlapping. -/
def splitOnNN : Str → List Str
  | [] => [[]]
  | [c] => [[c]]
  | a :: b :: rest =>
    if a = '\n' ∧ b = '\n' then [] :: splitOnNN rest
    else
      match splitOnNN (b :: rest) with
      | [] => [[a]]
      | h :: t => (a :: h) :: t

/-- Remove leading whitespace (the left half of `String.prototype.trim`). -/
def ltrim (l : Str) : Str := l.dropWhile isWsCh

/-- Remove trailing whitespace (the right half of `String.prototype.trim`). -/
def rtrim (l : Str) : Str := (l.reverse.dropWhile isWsCh).reverse

/-- `String.prototype.trim()`. -/
def trimStr (l : Str) : Str := ltrim (rtrim l)

/-- `replace(/\s+/g, ' ')`: collapse every whitespace run to one space. -/
def collapseWS : Str → Str
  | [] => []
  | [c] => if isWsCh c then [' '] else [c]
  | a :: b :: rest =>
    if isWsCh a then
      if isWsCh b then collapseWS (b :: rest) else ' ' :: collapseWS (b :: rest)
    else a :: collapseWS (b :: rest)

/-- `replace(/<[^>]*>/g, '')`, fuelled: a `<` with a later `>` opens a tag
reaching to the first `>`; a `<` without any later `>` never matches.  The
fuel (initially the string length, strictly more than the number of scan
steps) makes the recursion structural; the exhausted branch is
unreachable. -/
def stripTagsAux : ℕ → Str → Str
  | 0, l => l
  | _ + 1, [] => []
  | fuel + 1, c :: rest =>
    if c = '<' ∧ '>' ∈ rest then
      stripTagsAux fuel ((rest.dropWhile (· ≠ '>')).tail)
    else c :: stripTagsAux fuel rest

/-- `replace(/<[^>]*>/g, '')`. -/
def stripTags (l : Str) : Str := stripTagsAux l.length l

/-- `replace(/\s+([.!?])/g, '$1')`, fuelled: a whitespace run immediately
followed by terminal punctuation is deleted (keeping the punctuation). -/
def fixPunctAux : ℕ → Str → Str
  | 0, l => l
  | _ + 1, [] => []
  | fuel + 1, c :: rest =>
    if isWsCh c then
      match rest.dropWhile isWsCh with
      | p :: rest2 =>
        if isPunctCh p then p :: fixPunctAux fuel rest2
        else c :: (rest.takeWhile isWsCh ++ p :: fixPunctAux fuel rest2)
      | [] => c :: rest
    else c :: fixPunctAux fuel rest

/-- `replace(/\s+([.!?])/g, '$1')`. -/
def fixPunctWS (l : Str) : Str := fixPunctAux l.length l

/-- `replace(/([.!?]\s+)([a-z])/g, punct + upper(letter))`, fuelled:
uppercase a lowercase letter that follows terminal punctuation plus a
whitespace run; scanning resumes after the letter. -/
def capAfterAux : ℕ → Str → Str
  | 0, l => l
  | _ + 1, [] => []
  | fuel + 1, c :: rest =>
    if isPunctCh c then
      match rest.takeWhile isWsCh, rest.dropWhile isWsCh with
      | _ :: _, l :: rest2 =>
        if isLowerCh l then
          c :: (rest.takeWhile isWsCh ++ toUpperCh l :: capAfterAux fuel rest2)
        else c :: capAfterAux fuel rest
      | _, _ => c :: capAfterAux fuel rest
    else c :: capAfterAux fuel rest

/-- `replace(/([.!?]\s+)([a-z])/g, ...)`. -/
def capAfterPunct (l : Str) : Str := capAfterAux l.length l

/-- `replace(/^[a-z]/, upper)`: capitalize a lowercase first letter. -/
def capFirst : Str → Str
  | [] => []
  | c :: rest => if isLowerCh c then toUpperCh c :: rest else c :: rest

/-- `cleanTextForSRT` (the TextNormalizer), `srt.js` lines 87-102: trim,
collapse whitespace, strip tags, glue punctuation, capitalize after
sentence endings, capitalize the first letter.  `if (!text) return ''`
is the empty-string guard. -/
def cleanTextForSRT (text : Str) : Str :=
  if text = [] then []
  else capFirst (capAfterPunct (fixPunctWS (stripTags (collapseWS (trimStr text)))))

/-! ### Decimal digit strings and JavaScript number coercions -/

/-- The decimal digit character for `d` (used for `d < 10`). -/
def digitChar (d : ℕ) : Char := Char.ofNat (48 + d)

/-- `Number.prototype.toString()` for naturals, fuelled (`fuel = n + 1`
suffices since a natural has at most `n + 1` decimal digits). -/
def natToStrAux : ℕ → ℕ → Str
  | 0, _ => []
  | fuel + 1, n =>
    if n < 10 then [digitChar n]
    else natToStrAux fuel (n / 10) ++ [digitChar (n % 10)]

/-- Decimal representation of a natural number. -/
def natToStr (n : ℕ) : Str := natToStrAux (n + 1) n

/-- Decimal representation of an integer (`toString()` on a JS number
holding an integral value). -/
def intToStr (i : ℤ) : Str :=
  if i < 0 then '-' :: natToStr (-i).toNat else natToStr i.toNat

/-- Numeric value of a digit string (0 for the empty string). -/
def strToNat (l : Str) : ℕ := l.foldl (fun a c => 10 * a + (c.toNat - 48)) 0

/-- `String.prototype.padStart(w, '0')`. -/
def pad (w : ℕ) (s : Str) : Str := List.replicate (w - s.length) '0' ++ s

/-- Unsigned decimal literal parsing (digits, optionally a point and more
digits), the fragment of JavaScript `Number(...)` coercion exercised by
this code base; exponents, hex and infinities do not occur here. -/
def parseDec (t : Str) : Option ℚ :=
  let intPart := t.takeWhile Char.isDigit
  let rest := t.dropWhile Char.isDigit
  match rest with
  | [] => if intPart = [] then none else some (strToNat intPart : ℚ)
  | '.' :: frac =>
    if frac.all Char.isDigit ∧ (intPart ≠ [] ∨ frac ≠ []) then
      some ((strToNat intPart : ℚ) + (strToNat frac : ℚ) / (10 ^ frac.length : ℕ))
    else none
  | _ => none

/-- JavaScript `Number(s)` for strings: trims, maps the empty string to 0,
parses an optionally signed decimal literal, and yields `NaN` (modelled as
`none`) otherwise. -/
def jsNumber (s : Str) : Option ℚ :=
  let t := trimStr s
  if t = [] then some 0
  else
    match t with
    | '-' :: r => (parseDec r).map (fun q => -q)
    | '+' :: r => parseDec r
    | _ => parseDec t

/-- Leading-digit parsing used by `parseInt`. -/
def parseIntDigits (l : Str) : Option ℕ :=
  let ds := l.takeWhile Char.isDigit
  if ds = [] then none else some (strToNat ds)

/-- JavaScript `parseInt(x)` as used in `srtTimeToSeconds`: the argument is
the second component of a `split(',')`, hence possibly `undefined`
(`none`), which coerces to the string `"undefined"` and parses to `NaN`.
For a string: skip leading whitespace, optional sign, leading digits;
no digits means `NaN` (`none`). -/
def jsParseInt : Option Str → Option ℤ
  | none => none
  | some s =>
    let t := s.dropWhile isWsCh
    match t with
    | '-' :: r => (parseIntDigits r).map (fun n => -(n : ℤ))
    | '+' :: r => (parseIntDigits r).map (fun n => (n : ℤ))
    | _ => (parseIntDigits t).map (fun n => (n : ℤ))

/-! ### TimeCodec -/

/-- Truncation toward zero, the rounding of the JavaScript `%` operator. -/
def jsTrunc (q : ℚ) : ℤ := if 0 ≤ q then Rat.floor q else -Rat.floor (-q)

/-- JavaScript `x % n` on finite numbers (`n ≠ 0`): the remainder of the
truncated division. -/
def jsMod (x n : ℚ) : ℚ := x - n * (jsTrunc (x / n) : ℚ)

/-- JavaScript `Math.round`: round half toward positive infinity. -/
def jsRound (q : ℚ) : ℤ := Rat.floor (q + 1 / 2)

/-- `secondsToSRTTime` (TimeCodec encoding), `srt.js` lines 58-69. -/
def secondsToSRTTime (seconds : ℚ) : Str :=
  let hours := Rat.floor (seconds / 3600)
  let minutes := Rat.floor (jsMod seconds 3600 / 60)
  let secs := Rat.floor (jsMod seconds 60)
  let milliseconds := Rat.floor (jsMod seconds 1 * 1000)
  pad 2 (intToStr hours) ++ ':' :: pad 2 (intToStr minutes) ++ ':' ::
    pad 2 (intToStr secs) ++ ',' :: pad 3 (intToStr milliseconds)

/-- `srtTimeToSeconds` (TimeCodec decoding), `srt.js` lines 76-80:
`split(',')` into time and milliseconds, `split(':').map(Number)`
destructured into hours/minutes/seconds (missing components are
`undefined`, which behaves as `NaN` in arithmetic, like any `NaN`
component), and `parseInt` on the millisecond part.  The result is `NaN`
(`none`) as soon as one operand is. -/
def srtTimeToSeconds (srtTime : Str) : Option ℚ :=
  let parts := splitOnChar ',' srtTime
  let ms := parts[1]?
  let tp := (splitOnChar ':' (parts.headD [])).map jsNumber
  match tp[0]?.join, tp[1]?.join, tp[2]?.join, jsParseInt ms with
  | some h, some m, some s, some msv =>
      some (h * 3600 + m * 60 + s + (msv : ℚ) / 1000)
  | _, _, _, _ => none

/-! ### Data model -/

/-- A transcription segment `{start, end, text}` (`end` is spelled `endT`
because `end` is a Lean keyword). -/
structure Segment where
  start : ℚ
  endT : ℚ
  text : Str
deriving DecidableEq

/-- A chunked sub-segment `{start, end, text, words}` as pushed by the
caption-processing effect of `VideoPlayerWithCaptions.jsx`. -/
structure SubSeg where
  start : ℚ
  endT : ℚ
  text : Str
  words : List Str
deriving DecidableEq

/-- A Remotion caption record as built by `generateRemotionCaptions`. -/
structure RemotionCaption where
  id : ℕ
  startTime : ℤ
  endTime : ℤ
  text : Str
  duration : ℤ
deriving DecidableEq

/-- The result record of `validateSRT`. -/
structure ValidationResult where
  isValid : Bool
  errors : List Str
deriving DecidableEq

/-! ### SrtSerializer -/

/-- The `segments.forEach` body of `generateSRT` (`srt.js` lines 14-29):
per segment append the 1-based index line, the timestamp line, the cleaned
text line and a blank separator line. -/
def buildContent : List Segment → ℕ → Str
  | [], _ => []
  | s :: rest, idx =>
    natToStr idx ++ '\n' ::
      (secondsToSRTTime s.start ++ s2l " --> " ++ secondsToSRTTime s.endT) ++ '\n' ::
      cleanTextForSRT s.text ++ '\n' :: '\n' :: buildContent rest (idx + 1)

/-- `generateSRT` on an array argument, `srt.js` lines 7-32: empty input
yields the empty string, otherwise the accumulated entry blocks with the
trailing whitespace trimmed. -/
def generateSRT (segments : List Segment) : Str :=
  if segments.isEmpty then [] else trimStr (buildContent segments 1)

/-- The `segments.map((segment, index) => ...)` of
`generateRemotionCaptions` (`srt.js` lines 44-50). -/
def remotionAux : List Segment → ℕ → List RemotionCaption
  | [], _ => []
  | s :: rest, index =>
    { id := index + 1
      startTime := jsRound (s.start * 1000)
      endTime := jsRound (s.endT * 1000)
      text := cleanTextForSRT s.text
      duration := jsRound ((s.endT - s.start) * 1000) } :: remotionAux rest (index + 1)

/-- `generateRemotionCaptions` on an array argument, `srt.js` lines 39-51. -/
def generateRemotionCaptions (segments : List Segment) : List RemotionCaption :=
  remotionAux segments 0

/-- The values a JavaScript caller might pass where an array is expected;
`arr` is the only constructor on which `Array.isArray` holds. -/
inductive JSValue where
  | jsNull
  | undef
  | str (s : Str)
  | num (q : ℚ)
  | bool (b : Bool)
  | arr (segments : List Segment)
deriving DecidableEq

/-- `Array.isArray`. -/
def isArray : JSValue → Bool
  | .arr _ => true
  | _ => false

/-- `generateSRT` including its defensive guard
`if (!segments || !Array.isArray(segments) || segments.length === 0)
return ''` (`srt.js` lines 8-10): every non-array argument falls into the
guard and yields the empty string. -/
def generateSRTJS : JSValue → Str
  | .arr segments => generateSRT segments
  | _ => []

/-- `generateRemotionCaptions` including its guard
`if (!segments || !Array.isArray(segments)) return []`
(`srt.js` lines 40-42). -/
def generateRemotionCaptionsJS : JSValue → List RemotionCaption
  | .arr segments => generateRemotionCaptions segments
  | _ => []

/-! ### SrtParser -/

/-- Fixed-width check for the timestamp group `\d{2}:\d{2}:\d{2},\d{3}`. -/
def isTS12 : Str → Bool
  | [a, b, c, d, e, f, g, h, i, j, k, l] =>
    a.isDigit && b.isDigit && c = ':' && d.isDigit && e.isDigit && f = ':' &&
    g.isDigit && h.isDigit && i = ',' && j.isDigit && k.isDigit && l.isDigit
  | _ => false

/-- Does the fixed-width pattern
`(\d{2}:\d{2}:\d{2},\d{3}) --> (\d{2}:\d{2}:\d{2},\d{3})` match at the
start of `l`?  Every sub-pattern has fixed width, so no backtracking is
involved. -/
def tsHere (l : Str) : Bool :=
  isTS12 (l.take 12) && decide ((l.drop 12).take 5 = s2l " --> ") &&
    isTS12 ((l.drop 17).take 12)

/-- `lines[1].match(/(\d{2}:\d{2}:\d{2},\d{3}) --> (\d{2}:\d{2}:\d{2},\d{3})/)`:
the leftmost match position, returning the two captured groups. -/
def tsMatch : Str → Option (Str × Str)
  | [] => none
  | c :: rest =>
    if tsHere (c :: rest) then some ((c :: rest).take 12, ((c :: rest).drop 17).take 12)
    else tsMatch rest

/-- One iteration of the `for (const entry of entries)` loop of
`parseSRTContent` (`srt.js` lines 113-125): at least 3 lines, a timestamp
match on the second line, text lines rejoined and trimmed.  A timestamp
group matched by the pattern always parses to a number, so the defensive
`none` branch on `srtTimeToSeconds` is unreachable. -/
def parseEntry (entry : Str) : Option Segment :=
  let lines := splitOnChar '\n' entry
  if 3 ≤ lines.length then
    match tsMatch (lines.getD 1 []) with
    | some (t1, t2) =>
      match srtTimeToSeconds t1, srtTimeToSeconds t2 with
      | some a, some b => some ⟨a, b, trimStr (List.intercalate ['\n'] (lines.drop 2))⟩
      | _, _ => none
    | none => none
  else none

/-- `parseSRTContent`, `srt.js` lines 109-128: trim, split on blank lines,
keep the entries that parse.  No failure mode: malformed entries are
skipped and an input with no well-formed entry yields `[]`. -/
def parseSRTContent (srtContent : Str) : List Segment :=
  (splitOnNN (trimStr srtContent)).filterMap parseEntry

/-! ### SrtValidator -/

/-- Placeholder segment for indexed access (`segments[i]` is always in
range in `validateSRT`). -/
def dfltSeg : Segment := ⟨0, 0, []⟩

/-- `validateSRT`, `srt.js` lines 135-171: empty content error, re-parse,
no-entries error, then in order the overlapping-timestamp errors of the
first loop and the non-positive-duration errors of the second;
`isValid` iff no error was pushed.  The `typeof srtContent !== 'string'`
half of the first guard is outside the string-input model. -/
def validateSRT (srtContent : Str) : ValidationResult :=
  if srtContent = [] then ⟨false, [s2l "SRT content is empty or invalid"]⟩
  else
    let segments := parseSRTContent srtContent
    if segments.length = 0 then ⟨false, [s2l "No valid subtitle entries found"]⟩
    else
      let overlapErrors := (List.range (segments.length - 1)).filterMap fun i =>
        if (segments.getD i dfltSeg).endT > (segments.getD (i + 1) dfltSeg).start then
          some (s2l "Overlapping timestamps at entry " ++ natToStr (i + 1) ++
            s2l " and " ++ natToStr (i + 2))
        else none
      let durationErrors := (List.range segments.length).filterMap fun i =>
        if (segments.getD i dfltSeg).endT ≤ (segments.getD i dfltSeg).start then
          some (s2l "Invalid duration at entry " ++ natToStr (i + 1))
        else none
      let errors := overlapErrors ++ durationErrors
      ⟨errors.isEmpty, errors⟩

/-! ### Chunker -/

/-- The chunking loop
`for (let i = 0; i < words.length; i += maxWordsPerSegment)` of the
caption-processing effect (`VideoPlayerWithCaptions.jsx` lines 88-99),
generalized from the literal `maxWordsPerSegment = 6` to a parameter `m`
and fuelled (`fuel = words.length` suffices for `m ≥ 1`; for `m = 0` the
JavaScript loop would not terminate, which the fuel cuts off). -/
def chunkLoop (S E d : ℚ) (m : ℕ) (words : List Str) : ℕ → ℕ → List SubSeg
  | 0, _ => []
  | fuel + 1, i =>
    if i < words.length then
      { start := S + ((i : ℚ) / (m : ℚ)) * d
        endT := min (S + (((i : ℚ) + (m : ℚ)) / (m : ℚ)) * d) E
        text := List.intercalate [' '] ((words.drop i).take m)
        words := (words.drop i).take m } :: chunkLoop S E d m words fuel (i + m)
    else []

/-- The per-caption chunking of the `processedCaptions` effect
(`VideoPlayerWithCaptions.jsx` lines 83-100) with the word limit as a
parameter: split the text on single spaces (never an empty list in
JavaScript), divide the duration by `Math.ceil(words.length / m)`, and
emit the word slices with proportional timing. -/
def chunkSegmentGen (m : ℕ) (seg : Segment) : List SubSeg :=
  let words := splitOnChar ' ' seg.text
  let chunkCount : ℤ := -Rat.floor (-((words.length : ℚ) / (m : ℚ)))
  let segmentDuration : ℚ := (seg.endT - seg.start) / (chunkCount : ℚ)
  chunkLoop seg.start seg.endT segmentDuration m words words.length 0

/-- The chunker as written in the source, with `maxWordsPerSegment = 6`. -/
def chunkSegment (seg : Segment) : List SubSeg := chunkSegmentGen 6 seg

/-! ### TimelineTracker -/

/-- JavaScript numbers for the word-highlight computation, where division
by zero can produce `NaN` or signed infinities. -/
inductive JSN where
  | nan
  | inf
  | ninf
  | num (q : ℚ)
deriving DecidableEq

/-- JavaScript division of finite numbers. -/
def jsDivJ (a b : ℚ) : JSN :=
  if b = 0 then (if a = 0 then .nan else if 0 < a then .inf else .ninf)
  else .num (a / b)

/-- JavaScript multiplication of a possibly non-finite number by a finite
one (`Infinity * 0` is `NaN`). -/
def jsMulJ : JSN → ℚ → JSN
  | .nan, _ => .nan
  | .inf, q => if q = 0 then .nan else if 0 < q then .inf else .ninf
  | .ninf, q => if q = 0 then .nan else if 0 < q then .ninf else .inf
  | .num a, q => .num (a * q)

/-- JavaScript `Math.floor` on a possibly non-finite number. -/
def jsFloorJ : JSN → JSN
  | .num a => .num (Rat.floor a : ℚ)
  | x => x

/-- JavaScript `Math.min` against a finite number (`NaN` propagates). -/
def jsMinJ : JSN → ℚ → JSN
  | .nan, _ => .nan
  | .inf, q => .num q
  | .ninf, _ => .ninf
  | .num a, q => .num (min a q)

/-- `processedCaptions.find(caption => currentTime >= caption.start &&
currentTime <= caption.end)` (`VideoPlayerWithCaptions.jsx` lines 113-115). -/
def findActive (chunks : List SubSeg) (t : ℚ) : Option SubSeg :=
  chunks.find? fun c => decide (c.start ≤ t ∧ t ≤ c.endT)

/-- The highlighted-word computation of the word-highlight effect
(`VideoPlayerWithCaptions.jsx` lines 122-124):
`segmentProgress = (currentTime - start) / (end - start)`,
`wordIndex = Math.floor(segmentProgress * words.length)`,
`Math.min(wordIndex, words.length - 1)`. -/
def highlightIdx (c : SubSeg) (t : ℚ) : JSN :=
  jsMinJ (jsFloorJ (jsMulJ (jsDivJ (t - c.start) (c.endT - c.start)) (c.words.length : ℚ)))
    ((c.words.length : ℚ) - 1)

/-- The word-highlight effect (`VideoPlayerWithCaptions.jsx` lines
106-130) as a function of the chunk list and the current time: the active
chunk (if any) and the value stored by `setHighlightedWordIndex`
(`.num 0` when no chunk is active). -/
def trackerUpdate (chunks : List SubSeg) (t : ℚ) : Option SubSeg × JSN :=
  match findActive chunks t with
  | some c => (some c, highlightIdx c t)
  | none => (none, .num 0)

/-- Modelled from the spec: the timestamp pattern
`\d{2}:\d{2}:\d{2},\d{3}` (component counts enforced, hour field may have
2 or more digits) that `fromTimestamp` is claimed to enforce; the source
contains no such check inside `srtTimeToSeconds`, so the spec's wording is
the only available definition. -/
def specTimestampPattern (l : Str) : Bool :=
  match splitOnChar ',' l with
  | [time, ms] =>
    (match splitOnChar ':' time with
     | [h, m, s] =>
       2 ≤ h.length && h.all Char.isDigit && m.length = 2 && m.all Char.isDigit &&
         s.length = 2 && s.all Char.isDigit
     | _ => false) && ms.length = 3 && ms.all Char.isDigit
  | _ => false

/-- Invariant checker: does the string contain two adjacent whitespace
characters?  (Used to state what `collapseWS` establishes.) -/
def hasWW : Str → Bool
  | a :: b :: r => (isWsCh a && isWsCh b) || hasWW (b :: r)
  | _ => false

/-- Invariant checker: does the string contain a whitespace character
immediately followed by terminal punctuation?  (What `fixPunctWS`
eliminates.) -/
def hasWP : Str → Bool
  | a :: b :: r => (isWsCh a && isPunctCh b) || hasWP (b :: r)
  | _ => false

/-- Invariant checker: does the string contain punctuation, then one
whitespace character, then a lowercase letter?  (What `capAfterPunct`
eliminates on whitespace-collapsed strings.) -/
def hasPWL : Str → Bool
  | a :: b :: c :: r => (isPunctCh a && isWsCh b && isLowerCh c) || hasPWL (b :: c :: r)
  | _ => false

/-- Invariant checker: every whitespace character is a plain space. -/
def okWs (l : Str) : Bool := l.all fun c => !isWsCh c || c == ' '

/-- Invariant checker: the first character, if any, is not whitespace. -/
def okHead : Str → Bool
  | [] => true
  | c :: _ => !isWsCh c

/-- Invariant checker: the last character, if any, is not whitespace. -/
def okLast (l : Str) : Bool :=
  match l.getLast? with
  | none => true
  | some c => !isWsCh c

/-- Invariant checker: the first character, if any, is not lowercase. -/
def headNotLower : Str → Bool
  | [] => true
  | c :: _ => !isLowerCh c

/-- Truncation of a time value to millisecond precision — the value that
survives a serialize/parse round trip. -/
def msFloor (q : ℚ) : ℚ := ((Rat.floor (1000 * q) : ℤ) : ℚ) / 1000

/-- The canonical serialized timestamp built from the four components. -/
def tsStr (H MN SC MS : ℕ) : Str :=
  pad 2 (natToStr H) ++ ':' :: pad 2 (natToStr MN) ++ ':' ::
    pad 2 (natToStr SC) ++ ',' :: pad 3 (natToStr MS)

/-- Invariant checker: the string contains no two adjacent newline
characters, so the `split('\n\n')` separator never occurs inside it. -/
def noNN : Str → Bool
  | [] => true
  | [_] => true
  | a :: b :: rest => !(a == '\n' && b == '\n') && noNN (b :: rest)

/-- The timestamp line of one serialized entry. -/
def tsLine (s : Segment) : Str :=
  secondsToSRTTime s.start ++ s2l " --> " ++ secondsToSRTTime s.endT

/-- One serialized entry block of `buildContent`: index line, timestamp
line and cleaned text line, without the trailing blank-line separator. -/
def entryBlock (idx : ℕ) (s : Segment) : Str :=
  natToStr idx ++ '\n' :: (tsLine s ++ '\n' :: cleanTextForSRT s.text)

/-- The entry blocks as they stand after the global trim of `generateSRT`:
every block keeps its full cleaned text except the last, whose trailing
whitespace is eaten by the trim. -/
def blockList : List Segment → ℕ → List Str
  | [], _ => []
  | [s], idx => [natToStr idx ++ '\n' :: (tsLine s ++ '\n' :: rtrim (cleanTextForSRT s.text))]
  | s :: rest, idx => entryBlock idx s :: blockList rest (idx + 1)

/-- Join blocks with the `\n\n` entry separator. -/
def joinNN : List Str → Str
  | [] => []
  | [b] => b
  | b :: rest => b ++ '\n' :: '\n' :: joinNN rest

/-! ## Basic bridging lemmas -/

/-- `Rat.floor` is Mathlib's floor. -/
theorem rat_floor_eq (q : ℚ) : Rat.floor q = ⌊q⌋ := by
  rw [Rat.floor_def', ← Rat.floor_def]

/-! ## Digit strings -/

theorem digitChar_isDigit {d : ℕ} (h : d < 10) : (digitChar d).isDigit = true := by
  interval_cases d <;> decide

theorem digitChar_toNat {d : ℕ} (h : d < 10) : (digitChar d).toNat = 48 + d := by
  interval_cases d <;> decide

theorem natToStrAux_digits :
    ∀ fuel n, ∀ c ∈ natToStrAux fuel n, c.isDigit = true := by
  intro fuel
  induction fuel with
  | zero => intro n c hc; simp [natToStrAux] at hc
  | succ f ih =>
    intro n c hc
    unfold natToStrAux at hc
    split at hc
    · rcases List.mem_singleton.1 hc with rfl
      exact digitChar_isDigit (by omega)
    · rcases List.mem_append.1 hc with h1 | h1
      · exact ih _ c h1
      · rcases List.mem_singleton.1 h1 with rfl
        exact digitChar_isDigit (Nat.mod_lt _ (by omega))

theorem natToStr_digits (n : ℕ) : ∀ c ∈ natToStr n, c.isDigit = true :=
  natToStrAux_digits _ n

theorem natToStr_ne_nil (n : ℕ) : natToStr n ≠ [] := by
  unfold natToStr natToStrAux
  split <;> simp

theorem strToNat_single (c : Char) : strToNat [c] = c.toNat - 48 := by
  simp [strToNat]

theorem strToNat_append_digit (a : Str) (c : Char) :
    strToNat (a ++ [c]) = 10 * strToNat a + (c.toNat - 48) := by
  simp [strToNat, List.foldl_append]

theorem strToNat_zeros (k : ℕ) (ds : Str) :
    strToNat (List.replicate k '0' ++ ds) = strToNat ds := by
  induction k with
  | zero => simp
  | succ j ih => simpa [strToNat, List.replicate_succ] using ih

theorem strToNat_pad (w : ℕ) (s : Str) : strToNat (pad w s) = strToNat s :=
  strToNat_zeros _ _

theorem strToNat_natToStrAux :
    ∀ fuel n, n < 10 ^ fuel → strToNat (natToStrAux fuel n) = n := by
  intro fuel
  induction fuel with
  | zero => intro n h; interval_cases n; rfl
  | succ f ih =>
    intro n h
    unfold natToStrAux
    split
    · rw [strToNat_single, digitChar_toNat (by omega)]; omega
    · rw [strToNat_append_digit, ih (n / 10) ?_, digitChar_toNat (Nat.mod_lt _ (by omega))]
      · omega
      · rw [Nat.div_lt_iff_lt_mul (by omega)]
        calc n < 10 ^ (f + 1) := h
        _ = 10 ^ f * 10 := by ring

theorem strToNat_natToStr (n : ℕ) : strToNat (natToStr n) = n := by
  refine strToNat_natToStrAux _ n ?_
  calc n < 10 ^ n := Nat.lt_pow_self (by omega) n
  _ ≤ 10 ^ (n + 1) := Nat.pow_le_pow_right (by omega) (Nat.le_succ n)

theorem pad_digits {s : Str} (hs : ∀ c ∈ s, c.isDigit = true) (w : ℕ) :
    ∀ c ∈ pad w s, c.isDigit = true := by
  intro c hc
  rcases List.mem_append.1 hc with h1 | h1
  · rcases List.eq_of_mem_replicate h1 with rfl; decide
  · exact hs c h1

theorem pad_ne_nil {s : Str} (hs : s ≠ []) (w : ℕ) : pad w s ≠ [] := by
  unfold pad
  intro h
  rcases List.append_eq_nil.1 h with ⟨-, h2⟩
  exact hs h2

/-! ## Character class facts -/

theorem isDigit_not_ws {c : Char} (h : c.isDigit = true) : isWsCh c = false := by
  simp only [isWsCh, Bool.or_eq_false_iff, decide_eq_false_iff_not]
  refine ⟨⟨⟨?_, ?_⟩, ?_⟩, ?_⟩ <;> rintro rfl <;> exact absurd h (by decide)

theorem isDigit_ne {c : Char} (h : c.isDigit = true) :
    c ≠ ':' ∧ c ≠ ',' ∧ c ≠ '-' ∧ c ≠ '+' ∧ c ≠ '\n' := by
  refine ⟨?_, ?_, ?_, ?_, ?_⟩ <;> rintro rfl <;> exact absurd h (by decide)

theorem char_ofNat_toNat {n : ℕ} (h : n.isValidChar) : (Char.ofNat n).toNat = n := by
  unfold Char.ofNat
  rw [dif_pos h]
  rfl

theorem char_le_iff {a b : Char} : a ≤ b ↔ a.toNat ≤ b.toNat := by
  rw [Char.le_def, UInt32.le_def, BitVec.le_def]
  exact Iff.rfl

theorem char_eq_iff {a b : Char} : a = b ↔ a.toNat = b.toNat :=
  ⟨fun h => h ▸ rfl, fun h => Char.eq_of_val_eq (UInt32.toNat.inj h)⟩

theorem isLowerCh_iff {c : Char} : isLowerCh c = true ↔ 97 ≤ c.toNat ∧ c.toNat ≤ 122 := by
  simp [isLowerCh, char_le_iff, show ('a' : Char).toNat = 97 from rfl,
    show ('z' : Char).toNat = 122 from rfl]

theorem isWsCh_iff {c : Char} :
    isWsCh c = true ↔ c.toNat = 32 ∨ c.toNat = 9 ∨ c.toNat = 10 ∨ c.toNat = 13 := by
  simp only [isWsCh, Bool.or_eq_true, decide_eq_true_eq]
  rw [char_eq_iff, char_eq_iff, char_eq_iff, char_eq_iff]
  rw [show (' ' : Char).toNat = 32 from rfl, show ('\t' : Char).toNat = 9 from rfl,
    show ('\n' : Char).toNat = 10 from rfl, show ('\x0d' : Char).toNat = 13 from rfl]
  omega

theorem isPunctCh_iff {c : Char} :
    isPunctCh c = true ↔ c.toNat = 46 ∨ c.toNat = 33 ∨ c.toNat = 63 := by
  simp only [isPunctCh, Bool.or_eq_true, decide_eq_true_eq]
  rw [char_eq_iff, char_eq_iff, char_eq_iff]
  rw [show ('.' : Char).toNat = 46 from rfl, show ('!' : Char).toNat = 33 from rfl,
    show ('?' : Char).toNat = 63 from rfl]
  omega

theorem ws_not_punct {c : Char} (h : isWsCh c = true) : isPunctCh c = false := by
  cases hb : isPunctCh c
  · rfl
  · exfalso
    have h1 := isWsCh_iff.1 h
    have h2 := isPunctCh_iff.1 hb
    omega

theorem lower_not_ws {c : Char} (h : isLowerCh c = true) : isWsCh c = false := by
  cases hb : isWsCh c
  · rfl
  · exfalso
    have h1 := isLowerCh_iff.1 h
    have h2 := isWsCh_iff.1 hb
    omega

theorem punct_not_ws {c : Char} (h : isPunctCh c = true) : isWsCh c = false := by
  cases hb : isWsCh c
  · rfl
  · exfalso
    have h1 := isPunctCh_iff.1 h
    have h2 := isWsCh_iff.1 hb
    omega

theorem toUpperCh_toNat {c : Char} (h : isLowerCh c = true) :
    (toUpperCh c).toNat = c.toNat - 32 := by
  obtain ⟨h1, h2⟩ := isLowerCh_iff.1 h
  unfold toUpperCh
  rw [if_pos h]
  exact char_ofNat_toNat (Or.inl (by omega))

theorem toUpperCh_facts {c : Char} (h : isLowerCh c = true) :
    isLowerCh (toUpperCh c) = false ∧ isWsCh (toUpperCh c) = false ∧
      isPunctCh (toUpperCh c) = false ∧ toUpperCh c ≠ '<' ∧ toUpperCh c ≠ '\n' := by
  obtain ⟨h1, h2⟩ := isLowerCh_iff.1 h
  have ht := toUpperCh_toNat h
  refine ⟨?_, ?_, ?_, ?_, ?_⟩
  · cases hb : isLowerCh (toUpperCh c)
    · rfl
    · exfalso
      have := isLowerCh_iff.1 hb
      omega
  · cases hb : isWsCh (toUpperCh c)
    · rfl
    · exfalso
      have := isWsCh_iff.1 hb
      omega
  · cases hb : isPunctCh (toUpperCh c)
    · rfl
    · exfalso
      have := isPunctCh_iff.1 hb
      omega
  · intro he
    have h60 : (toUpperCh c).toNat = ('<' : Char).toNat := by rw [he]
    rw [show ('<' : Char).toNat = 60 from rfl] at h60
    omega
  · intro he
    have h10 : (toUpperCh c).toNat = ('\n' : Char).toNat := by rw [he]
    rw [show ('\n' : Char).toNat = 10 from rfl] at h10
    omega

/-! ## Trim and split lemmas -/

theorem dropWhile_eq_self_of_forall {p : Char → Bool} :
    ∀ {l : Str}, (∀ c ∈ l, p c = false) → l.dropWhile p = l := by
  intro l h
  cases l with
  | nil => rfl
  | cons c rest => simp [List.dropWhile_cons, h c (List.mem_cons_self _ _)]

theorem takeWhile_eq_self_of_forall {p : Char → Bool} :
    ∀ {l : Str}, (∀ c ∈ l, p c = true) → l.takeWhile p = l := by
  intro l
  induction l with
  | nil => intro; rfl
  | cons c rest ih =>
    intro h
    simp [List.takeWhile_cons, h c (List.mem_cons_self _ _),
      ih fun d hd => h d (List.mem_cons_of_mem _ hd)]

theorem dropWhile_eq_nil_of_forall {p : Char → Bool} :
    ∀ {l : Str}, (∀ c ∈ l, p c = true) → l.dropWhile p = [] := by
  intro l
  induction l with
  | nil => intro; rfl
  | cons c rest ih =>
    intro h
    rw [List.dropWhile_cons, h c (List.mem_cons_self _ _)]
    exact ih fun d hd => h d (List.mem_cons_of_mem _ hd)

theorem ltrim_eq_self {l : Str} (h : ∀ c ∈ l, isWsCh c = false) : ltrim l = l :=
  dropWhile_eq_self_of_forall h

theorem rtrim_eq_self {l : Str} (h : ∀ c ∈ l, isWsCh c = false) : rtrim l = l := by
  unfold rtrim
  rw [dropWhile_eq_self_of_forall fun c hc => h c (List.mem_reverse.1 hc), List.reverse_reverse]

theorem trimStr_eq_self {l : Str} (h : ∀ c ∈ l, isWsCh c = false) : trimStr l = l := by
  unfold trimStr
  rw [rtrim_eq_self h, ltrim_eq_self h]

theorem splitOnChar_ne_nil (sep : Char) : ∀ l : Str, splitOnChar sep l ≠ [] := by
  intro l
  induction l with
  | nil => simp [splitOnChar]
  | cons c rest ih =>
    unfold splitOnChar
    rcases hs : splitOnChar sep rest with - | ⟨h, t⟩
    · exact absurd hs ih
    · by_cases hcs : c = sep <;> simp [hcs]

theorem splitOnChar_not_mem {sep : Char} :
    ∀ {l : Str}, sep ∉ l → splitOnChar sep l = [l] := by
  intro l
  induction l with
  | nil => intro; rfl
  | cons c rest ih =>
    intro h
    have hcs : c ≠ sep := fun hc => h (hc ▸ List.mem_cons_self _ _)
    unfold splitOnChar
    rw [ih fun hm => h (List.mem_cons_of_mem _ hm)]
    simp [hcs]

theorem splitOnChar_append {sep : Char} :
    ∀ {a : Str} (b : Str), sep ∉ a →
      splitOnChar sep (a ++ sep :: b) = a :: splitOnChar sep b := by
  intro a
  induction a with
  | nil =>
    intro b _
    show splitOnChar sep (sep :: b) = [] :: splitOnChar sep b
    rcases hs : splitOnChar sep b with - | ⟨h, t⟩
    · exact absurd hs (splitOnChar_ne_nil sep b)
    · conv_lhs => rw [splitOnChar, hs]
      simp
  | cons c a' ih =>
    intro b h
    have hcs : c ≠ sep := fun hc => h (hc ▸ List.mem_cons_self _ _)
    have ha' := ih b fun hm => h (List.mem_cons_of_mem _ hm)
    show splitOnChar sep (c :: (a' ++ sep :: b)) = (c :: a') :: splitOnChar sep b
    conv_lhs => rw [splitOnChar, ha']
    simp [hcs]

/-! ## Number parsing on digit strings -/

theorem jsNumber_digits {ds : Str} (h1 : ds ≠ []) (h2 : ∀ c ∈ ds, c.isDigit = true) :
    jsNumber ds = some (strToNat ds : ℚ) := by
  unfold jsNumber
  rw [trimStr_eq_self fun c hc => isDigit_not_ws (h2 c hc)]
  rw [if_neg h1]
  have hpd : parseDec ds = some (strToNat ds : ℚ) := by
    unfold parseDec
    rw [takeWhile_eq_self_of_forall h2, dropWhile_eq_nil_of_forall h2]
    simp [h1]
  rcases ds with - | ⟨c, r⟩
  · exact absurd rfl h1
  · have hc := h2 c (List.mem_cons_self _ _)
    rcases isDigit_ne hc with ⟨-, -, hm, hp, -⟩
    split
    · next heq => exact absurd (List.head_eq_of_cons_eq heq) hm
    · next heq => exact absurd (List.head_eq_of_cons_eq heq) hp
    · exact hpd

theorem jsParseInt_digits {ds : Str} (h1 : ds ≠ []) (h2 : ∀ c ∈ ds, c.isDigit = true) :
    jsParseInt (some ds) = some ((strToNat ds : ℕ) : ℤ) := by
  show (match ds.dropWhile isWsCh with
    | '-' :: r => (parseIntDigits r).map (fun n => -(n : ℤ))
    | '+' :: r => (parseIntDigits r).map (fun n => (n : ℤ))
    | _ => (parseIntDigits (ds.dropWhile isWsCh)).map (fun n => (n : ℤ))) =
      some ((strToNat ds : ℕ) : ℤ)
  rw [show ds.dropWhile isWsCh = ds from
    dropWhile_eq_self_of_forall fun c hc => isDigit_not_ws (h2 c hc)]
  have hpd : parseIntDigits ds = some (strToNat ds) := by
    unfold parseIntDigits
    rw [takeWhile_eq_self_of_forall h2]
    simp [h1]
  rcases ds with - | ⟨c, r⟩
  · exact absurd rfl h1
  · have hc := h2 c (List.mem_cons_self _ _)
    rcases isDigit_ne hc with ⟨-, -, hm, hp, -⟩
    split
    · next heq => exact absurd (List.head_eq_of_cons_eq heq) hm
    · next heq => exact absurd (List.head_eq_of_cons_eq heq) hp
    · rw [hpd]; rfl

/-! ## TimeCodec lemmas -/

theorem srt_parse_tsStr (H MN SC MS : ℕ) :
    srtTimeToSeconds (tsStr H MN SC MS) =
      some ((H : ℚ) * 3600 + (MN : ℚ) * 60 + (SC : ℚ) + (MS : ℚ) / 1000) := by
  have hdig : ∀ X w, ∀ c ∈ pad w (natToStr X), c.isDigit = true := fun X w =>
    pad_digits (natToStr_digits X) w
  have hne : ∀ X w, pad w (natToStr X) ≠ [] := fun X w =>
    pad_ne_nil (natToStr_ne_nil X) w
  have hval : ∀ X w, jsNumber (pad w (natToStr X)) = some (X : ℚ) := by
    intro X w
    rw [jsNumber_digits (hne X w) (hdig X w), strToNat_pad, strToNat_natToStr]
  have hmsv : jsParseInt (some (pad 3 (natToStr MS))) = some ((MS : ℕ) : ℤ) := by
    rw [jsParseInt_digits (hne MS 3) (hdig MS 3), strToNat_pad, strToNat_natToStr]
  have hnc : ∀ X w, (',' : Char) ∉ pad w (natToStr X) := by
    intro X w hm
    rcases isDigit_ne (hdig X w _ hm) with ⟨-, hc, -⟩
    exact hc rfl
  have hncol : ∀ X w, (':' : Char) ∉ pad w (natToStr X) := by
    intro X w hm
    rcases isDigit_ne (hdig X w _ hm) with ⟨hc, -⟩
    exact hc rfl
  have hnotin : (',' : Char) ∉ pad 2 (natToStr H) ++ ':' :: pad 2 (natToStr MN) ++
      ':' :: pad 2 (natToStr SC) := by
    intro hm
    rcases List.mem_append.1 hm with h | h
    · rcases List.mem_append.1 h with h | h
      · exact hnc H 2 h
      · rcases List.mem_cons.1 h with h | h
        · exact absurd h (by decide)
        · exact hnc MN 2 h
    · rcases List.mem_cons.1 h with h | h
      · exact absurd h (by decide)
      · exact hnc SC 2 h
  simp only [srtTimeToSeconds, tsStr]
  rw [show pad 2 (natToStr H) ++ ':' :: pad 2 (natToStr MN) ++ ':' ::
        pad 2 (natToStr SC) ++ ',' :: pad 3 (natToStr MS) =
      (pad 2 (natToStr H) ++ ':' :: pad 2 (natToStr MN) ++ ':' :: pad 2 (natToStr SC)) ++
        ',' :: pad 3 (natToStr MS) by simp [List.append_assoc]]
  rw [splitOnChar_append _ hnotin, splitOnChar_not_mem (hnc MS 3)]
  simp only [List.headD_cons, List.getElem?_cons_zero, List.getElem?_cons_succ,
    List.getElem?_nil, List.append_assoc, List.cons_append]
  rw [splitOnChar_append _ (hncol H 2), splitOnChar_append _ (hncol MN 2),
    splitOnChar_not_mem (hncol SC 2)]
  simp only [List.map_cons, List.map_nil, List.getElem?_cons_zero,
    List.getElem?_cons_succ, Option.join]
  rw [hval H 2, hval MN 2, hval SC 2, hmsv]
  show some ((H : ℚ) * 3600 + (MN : ℚ) * 60 + (SC : ℚ) + (((MS : ℕ) : ℤ) : ℚ) / 1000) =
    some ((H : ℚ) * 3600 + (MN : ℚ) * 60 + (SC : ℚ) + (MS : ℚ) / 1000)
  congr 1

theorem intToStr_of_nonneg {i : ℤ} (h : 0 ≤ i) : intToStr i = natToStr i.toNat :=
  if_neg (not_lt.2 h)

theorem toNat_cast_q {i : ℤ} (h : 0 ≤ i) : ((i.toNat : ℕ) : ℚ) = (i : ℚ) := by
  exact_mod_cast Int.toNat_of_nonneg h

theorem jsMod_eq {x n : ℚ} (hx : 0 ≤ x) (hn : 0 < n) :
    jsMod x n = x - n * (⌊x / n⌋ : ℚ) := by
  unfold jsMod jsTrunc
  rw [if_pos (div_nonneg hx hn.le), rat_floor_eq]

theorem jsMod_nonneg {x n : ℚ} (hx : 0 ≤ x) (hn : 0 < n) : 0 ≤ jsMod x n := by
  rw [jsMod_eq hx hn, sub_nonneg]
  calc n * (⌊x / n⌋ : ℚ) ≤ n * (x / n) :=
        mul_le_mul_of_nonneg_left (Int.floor_le _) hn.le
  _ = x := mul_div_cancel₀ x hn.ne.symm

theorem jsMod_lt {x n : ℚ} (hx : 0 ≤ x) (hn : 0 < n) : jsMod x n < n := by
  rw [jsMod_eq hx hn, sub_lt_iff_lt_add]
  calc x = n * (x / n) := (mul_div_cancel₀ x hn.ne.symm).symm
  _ < n * ((⌊x / n⌋ : ℚ) + 1) :=
        mul_lt_mul_of_pos_left (Int.lt_floor_add_one _) hn
  _ = n + n * (⌊x / n⌋ : ℚ) := by ring

theorem secondsToSRTTime_eq (x : ℚ) (hx : 0 ≤ x) :
    secondsToSRTTime x =
      tsStr (⌊x / 3600⌋).toNat (⌊jsMod x 3600 / 60⌋).toNat
        (⌊jsMod x 60⌋).toNat (⌊jsMod x 1 * 1000⌋).toNat := by
  have h1 : (0 : ℤ) ≤ ⌊x / 3600⌋ := Int.floor_nonneg.2 (div_nonneg hx (by norm_num))
  have h2 : (0 : ℤ) ≤ ⌊jsMod x 3600 / 60⌋ :=
    Int.floor_nonneg.2 (div_nonneg (jsMod_nonneg hx (by norm_num)) (by norm_num))
  have h3 : (0 : ℤ) ≤ ⌊jsMod x 60⌋ := Int.floor_nonneg.2 (jsMod_nonneg hx (by norm_num))
  have h4 : (0 : ℤ) ≤ ⌊jsMod x 1 * 1000⌋ :=
    Int.floor_nonneg.2 (mul_nonneg (jsMod_nonneg hx (by norm_num)) (by norm_num))
  simp only [secondsToSRTTime, tsStr]
  rw [rat_floor_eq, rat_floor_eq, rat_floor_eq, rat_floor_eq,
    intToStr_of_nonneg h1, intToStr_of_nonneg h2, intToStr_of_nonneg h3,
    intToStr_of_nonneg h4]

theorem time_floor_sum (x : ℚ) (hx : 0 ≤ x) :
    ((⌊x / 3600⌋.toNat : ℕ) : ℚ) * 3600 + ((⌊jsMod x 3600 / 60⌋.toNat : ℕ) : ℚ) * 60 +
      ((⌊jsMod x 60⌋.toNat : ℕ) : ℚ) + ((⌊jsMod x 1 * 1000⌋.toNat : ℕ) : ℚ) / 1000 =
    msFloor x := by
  have h1 : (0 : ℤ) ≤ ⌊x / 3600⌋ := Int.floor_nonneg.2 (div_nonneg hx (by norm_num))
  have h2 : (0 : ℤ) ≤ ⌊jsMod x 3600 / 60⌋ :=
    Int.floor_nonneg.2 (div_nonneg (jsMod_nonneg hx (by norm_num)) (by norm_num))
  have h3 : (0 : ℤ) ≤ ⌊jsMod x 60⌋ := Int.floor_nonneg.2 (jsMod_nonneg hx (by norm_num))
  have h4 : (0 : ℤ) ≤ ⌊jsMod x 1 * 1000⌋ :=
    Int.floor_nonneg.2 (mul_nonneg (jsMod_nonneg hx (by norm_num)) (by norm_num))
  rw [toNat_cast_q h1, toNat_cast_q h2, toNat_cast_q h3, toNat_cast_q h4]
  -- name the integer components
  have e3600 : jsMod x 3600 = x - 3600 * (⌊x / 3600⌋ : ℚ) := jsMod_eq hx (by norm_num)
  have e60 : jsMod x 60 = x - 60 * (⌊x / 60⌋ : ℚ) := jsMod_eq hx (by norm_num)
  have e1 : jsMod x 1 = x - (⌊x⌋ : ℚ) := by
    rw [jsMod_eq hx (by norm_num)]
    simp
  -- minutes: ⌊x/60⌋ = 60 * ⌊x/3600⌋ + ⌊(x - 3600⌊x/3600⌋)/60⌋
  have hmin : ⌊jsMod x 3600 / 60⌋ = ⌊x / 60⌋ - 60 * ⌊x / 3600⌋ := by
    rw [e3600]
    have : (x - 3600 * (⌊x / 3600⌋ : ℚ)) / 60 = x / 60 - ((60 * ⌊x / 3600⌋ : ℤ) : ℚ) := by
      push_cast
      ring
    rw [this, Int.floor_sub_int]
  -- seconds: ⌊x - 60⌊x/60⌋⌋ = ⌊x⌋ - 60⌊x/60⌋
  have hsec : ⌊jsMod x 60⌋ = ⌊x⌋ - 60 * ⌊x / 60⌋ := by
    rw [e60]
    have : x - 60 * (⌊x / 60⌋ : ℚ) = x - ((60 * ⌊x / 60⌋ : ℤ) : ℚ) := by push_cast; ring
    rw [this, Int.floor_sub_int]
  -- milliseconds: ⌊(x - ⌊x⌋) * 1000⌋ = ⌊1000x⌋ - 1000⌊x⌋
  have hms : ⌊jsMod x 1 * 1000⌋ = ⌊1000 * x⌋ - 1000 * ⌊x⌋ := by
    rw [e1]
    have : (x - (⌊x⌋ : ℚ)) * 1000 = 1000 * x - ((1000 * ⌊x⌋ : ℤ) : ℚ) := by push_cast; ring
    rw [this, Int.floor_sub_int]
  rw [hmin, hsec, hms, msFloor, rat_floor_eq]
  push_cast
  ring

/-- Claim C3: for every `x ≥ 0`, decoding the encoded timestamp yields
exactly `x` truncated (floored) to millisecond precision: the result never
exceeds `x` and differs from it by strictly less than one millisecond, and
no rounding up across any boundary occurs since the result is exactly
`⌊1000x⌋/1000`. -/
theorem time_roundtrip (x : ℚ) (hx : 0 ≤ x) :
    srtTimeToSeconds (secondsToSRTTime x) = some (msFloor x) ∧
      msFloor x ≤ x ∧ x - msFloor x < 1 / 1000 := by
  refine ⟨?_, ?_, ?_⟩
  · rw [secondsToSRTTime_eq x hx, srt_parse_tsStr, time_floor_sum x hx]
  · rw [msFloor, rat_floor_eq, div_le_iff (by norm_num : (0:ℚ) < 1000)]
    calc ((⌊1000 * x⌋ : ℤ) : ℚ) ≤ 1000 * x := Int.floor_le _
    _ = x * 1000 := by ring
  · rw [msFloor, rat_floor_eq, sub_lt_iff_lt_add, div_add_div_same,
      lt_div_iff (by norm_num : (0:ℚ) < 1000)]
    calc x * 1000 = 1000 * x := by ring
    _ < (⌊1000 * x⌋ : ℚ) + 1 := Int.lt_floor_add_one _
    _ = ((1 : ℚ) + ⌊1000 * x⌋) := by ring

/-! ## Scanner helper lemmas -/

theorem okWs_iff {l : Str} : okWs l = true ↔ ∀ c ∈ l, isWsCh c = true → c = ' ' := by
  simp only [okWs, List.all_eq_true, Bool.or_eq_true, Bool.not_eq_true', beq_iff_eq]
  constructor
  · intro h c hc hw
    rcases h c hc with h' | h'
    · rw [h'] at hw
      exact absurd hw (by simp)
    · exact h'
  · intro h c hc
    cases hw : isWsCh c
    · exact Or.inl rfl
    · exact Or.inr (h c hc hw)

theorem hasWW_cons_nonws {a : Char} {l : Str} (h : isWsCh a = false) :
    hasWW (a :: l) = hasWW l := by
  cases l <;> simp [hasWW, h]

theorem hasWW_tail {a : Char} {l : Str} (h : hasWW (a :: l) = false) : hasWW l = false := by
  cases l with
  | nil => rfl
  | cons b r =>
    simp only [hasWW, Bool.or_eq_false_iff] at h
    exact h.2

theorem hasWW_pair {a b : Char} {l : Str} (h : hasWW (a :: b :: l) = false)
    (ha : isWsCh a = true) : isWsCh b = false := by
  simp only [hasWW, Bool.or_eq_false_iff, Bool.and_eq_false_iff] at h
  rcases h.1 with h' | h'
  · rw [ha] at h'
    exact absurd h' (by simp)
  · exact h'

theorem hasWP_cons_nonws {a : Char} {l : Str} (h : isWsCh a = false) :
    hasWP (a :: l) = hasWP l := by
  cases l <;> simp [hasWP, h]

theorem hasWP_tail {a : Char} {l : Str} (h : hasWP (a :: l) = false) : hasWP l = false := by
  cases l with
  | nil => rfl
  | cons b r =>
    simp only [hasWP, Bool.or_eq_false_iff] at h
    exact h.2

theorem hasWP_pair {a b : Char} {l : Str} (h : hasWP (a :: b :: l) = false)
    (ha : isWsCh a = true) : isPunctCh b = false := by
  simp only [hasWP, Bool.or_eq_false_iff, Bool.and_eq_false_iff] at h
  rcases h.1 with h' | h'
  · rw [ha] at h'
    exact absurd h' (by simp)
  · exact h'

theorem hasPWL_cons_nonpunct {a : Char} {l : Str} (h : isPunctCh a = false) :
    hasPWL (a :: l) = hasPWL l := by
  cases l with
  | nil => rfl
  | cons b r => cases r <;> simp [hasPWL, h]

theorem hasPWL_cons_second_nonws {a b : Char} {r : Str} (h : isWsCh b = false) :
    hasPWL (a :: b :: r) = hasPWL (b :: r) := by
  cases r <;> simp [hasPWL, h]

theorem hasPWL_tail {a : Char} {l : Str} (h : hasPWL (a :: l) = false) :
    hasPWL l = false := by
  cases l with
  | nil => rfl
  | cons b r =>
    cases r with
    | nil => rfl
    | cons c r2 =>
      simp only [hasPWL, Bool.or_eq_false_iff] at h
      exact h.2

theorem hasPWL_triple {a b c : Char} {l : Str} (h : hasPWL (a :: b :: c :: l) = false) :
    ¬(isPunctCh a = true ∧ isWsCh b = true ∧ isLowerCh c = true) := by
  simp only [hasPWL, Bool.or_eq_false_iff, Bool.and_eq_false_iff] at h
  rintro ⟨h1, h2, h3⟩
  rcases h.1 with (h' | h') | h' <;> simp_all

theorem okLast_cons_ne {c : Char} {l : Str} (h : l ≠ []) : okLast (c :: l) = okLast l := by
  cases l with
  | nil => exact absurd rfl h
  | cons b r =>
    unfold okLast
    rw [List.getLast?_cons_cons]

theorem okLast_singleton (c : Char) : okLast [c] = !isWsCh c := rfl

/-- Run decomposition on strings with no two adjacent whitespace
characters: a whitespace run is empty or a single character. -/
theorem run_split_punct {rest : Str} (hnoWW : hasWW rest = false) :
    (rest.takeWhile isWsCh = [] ∧ rest.dropWhile isWsCh = rest) ∨
    (∃ w rest', rest = w :: rest' ∧ isWsCh w = true ∧
      rest.takeWhile isWsCh = [w] ∧ rest.dropWhile isWsCh = rest') := by
  cases rest with
  | nil => exact Or.inl ⟨rfl, rfl⟩
  | cons w rest' =>
    cases hw : isWsCh w
    · exact Or.inl ⟨by rw [List.takeWhile_cons, hw]; rfl,
        by rw [List.dropWhile_cons, hw]; rfl⟩
    · right
      refine ⟨w, rest', rfl, hw, ?_, ?_⟩
      · rw [List.takeWhile_cons, hw]
        cases rest' with
        | nil => rfl
        | cons v r2 =>
          have hv : isWsCh v = false := hasWW_pair hnoWW hw
          rw [if_pos rfl, List.takeWhile_cons, hv]
          rfl
      · rw [List.dropWhile_cons, hw, if_pos rfl]
        cases rest' with
        | nil => rfl
        | cons v r2 =>
          have hv : isWsCh v = false := hasWW_pair hnoWW hw
          rw [List.dropWhile_cons, hv]
          rfl

/-! ## collapseWS equation lemmas -/

theorem collapse_single (a : Char) :
    collapseWS [a] = if isWsCh a = true then [' '] else [a] := rfl

theorem collapse_eq_ww {a b : Char} (r : Str) (ha : isWsCh a = true) (hb : isWsCh b = true) :
    collapseWS (a :: b :: r) = collapseWS (b :: r) := by
  simp [collapseWS, ha, hb]

theorem collapse_eq_wn {a b : Char} (r : Str) (ha : isWsCh a = true) (hb : isWsCh b = false) :
    collapseWS (a :: b :: r) = ' ' :: collapseWS (b :: r) := by
  simp [collapseWS, ha, hb]

theorem collapse_head_eq {a : Char} {rest : Str} (ha : isWsCh a = false) :
    collapseWS (a :: rest) = a :: collapseWS rest := by
  cases rest with
  | nil => simp [collapseWS, ha]
  | cons b r => simp [collapseWS, ha]

/-! ## collapseWS invariant lemmas -/

theorem collapse_okWs (l : Str) : okWs (collapseWS l) = true := by
  induction l with
  | nil => rfl
  | cons a rest ih =>
    cases rest with
    | nil =>
      rw [collapse_single]
      cases ha : isWsCh a
      · rw [if_neg (by simp)]
        rw [okWs_iff]
        intro c hc hw
        rcases List.mem_singleton.1 hc with rfl
        rw [ha] at hw
        exact absurd hw (by simp)
      · rw [if_pos rfl]
        decide
    | cons b r =>
      cases ha : isWsCh a
      · rw [collapse_head_eq ha, okWs_iff]
        intro c hc hw
        rcases List.mem_cons.1 hc with rfl | hm
        · rw [ha] at hw
          exact absurd hw (by simp)
        · exact okWs_iff.1 ih c hm hw
      · cases hb : isWsCh b
        · rw [collapse_eq_wn r ha hb, okWs_iff]
          intro c hc hw
          rcases List.mem_cons.1 hc with rfl | hm
          · rfl
          · exact okWs_iff.1 ih c hm hw
        · rw [collapse_eq_ww r ha hb]
          exact ih

theorem collapse_ne_nil {l : Str} (h : l ≠ []) : collapseWS l ≠ [] := by
  induction l with
  | nil => exact absurd rfl h
  | cons a rest ih =>
    cases rest with
    | nil =>
      rw [collapse_single]
      cases ha : isWsCh a
      · rw [if_neg (by simp)]
        simp
      · rw [if_pos rfl]
        simp
    | cons b r =>
      cases ha : isWsCh a
      · rw [collapse_head_eq ha]
        simp
      · cases hb : isWsCh b
        · rw [collapse_eq_wn r ha hb]
          simp
        · rw [collapse_eq_ww r ha hb]
          exact ih (by simp)

theorem collapse_noWW (l : Str) : hasWW (collapseWS l) = false := by
  induction l with
  | nil => rfl
  | cons a rest ih =>
    cases rest with
    | nil =>
      rw [collapse_single]
      cases ha : isWsCh a
      · rw [if_neg (by simp)]
        rfl
      · rw [if_pos rfl]
        rfl
    | cons b r =>
      cases ha : isWsCh a
      · rw [collapse_head_eq ha, hasWW_cons_nonws ha]
        exact ih
      · cases hb : isWsCh b
        · rw [collapse_eq_wn r ha hb, collapse_head_eq hb]
          rw [show hasWW (' ' :: b :: collapseWS r) =
              ((isWsCh ' ' && isWsCh b) || hasWW (b :: collapseWS r)) from rfl]
          rw [← collapse_head_eq hb, ih, hb]
          simp
        · rw [collapse_eq_ww r ha hb]
          exact ih

theorem collapse_okLast {l : Str} (h : okLast l = true) : okLast (collapseWS l) = true := by
  induction l with
  | nil => rfl
  | cons a rest ih =>
    cases rest with
    | nil =>
      rw [okLast_singleton] at h
      rw [collapse_single]
      cases ha : isWsCh a
      · rw [if_neg (by simp)]
        rw [okLast_singleton, ha]
        rfl
      · rw [ha] at h
        exact absurd h (by simp)
    | cons b r =>
      have hrest : okLast (b :: r) = true := by
        rw [okLast_cons_ne (by simp)] at h
        exact h
      have hne : collapseWS (b :: r) ≠ [] := collapse_ne_nil (by simp)
      cases ha : isWsCh a
      · rw [collapse_head_eq ha, okLast_cons_ne hne]
        exact ih hrest
      · cases hb : isWsCh b
        · rw [collapse_eq_wn r ha hb, okLast_cons_ne hne]
          exact ih hrest
        · rw [collapse_eq_ww r ha hb]
          exact ih hrest

theorem collapse_mem {c : Char} {l : Str} (h : c ∈ collapseWS l) : c ∈ l ∨ c = ' ' := by
  induction l with
  | nil => exact absurd h (by simp [collapseWS])
  | cons a rest ih =>
    cases rest with
    | nil =>
      rw [collapse_single] at h
      by_cases ha : isWsCh a = true
      · rw [if_pos ha] at h
        exact Or.inr (List.mem_singleton.1 h)
      · rw [if_neg ha] at h
        exact Or.inl h
    | cons b r =>
      cases ha : isWsCh a
      · rw [collapse_head_eq ha] at h
        rcases List.mem_cons.1 h with rfl | hm
        · exact Or.inl (List.mem_cons_self _ _)
        · rcases ih hm with hm' | hm'
          · exact Or.inl (List.mem_cons_of_mem _ hm')
          · exact Or.inr hm'
      · cases hb : isWsCh b
        · rw [collapse_eq_wn r ha hb] at h
          rcases List.mem_cons.1 h with rfl | hm
          · exact Or.inr rfl
          · rcases ih hm with hm' | hm'
            · exact Or.inl (List.mem_cons_of_mem _ hm')
            · exact Or.inr hm'
        · rw [collapse_eq_ww r ha hb] at h
          rcases ih h with hm' | hm'
          · exact Or.inl (List.mem_cons_of_mem _ hm')
          · exact Or.inr hm'

theorem collapse_eq_self {l : Str} (hok : okWs l = true) (hww : hasWW l = false) :
    collapseWS l = l := by
  induction l with
  | nil => rfl
  | cons a rest ih =>
    have hoktail : okWs rest = true := by
      rw [okWs_iff] at hok ⊢
      exact fun c hc => hok c (List.mem_cons_of_mem _ hc)
    cases rest with
    | nil =>
      rw [collapse_single]
      cases ha : isWsCh a
      · rw [if_neg (by simp)]
      · rw [if_pos rfl, okWs_iff.1 hok a (List.mem_cons_self _ _) ha]
    | cons b r =>
      cases ha : isWsCh a
      · rw [collapse_head_eq ha, ih hoktail (hasWW_tail hww)]
      · have hb : isWsCh b = false := hasWW_pair hww ha
        rw [collapse_eq_wn r ha hb, ih hoktail (hasWW_tail hww),
          okWs_iff.1 hok a (List.mem_cons_self _ _) ha]

/-! ## Trim edge lemmas -/

theorem head_dropWhile_not (p : Char → Bool) (l : Str) :
    ∀ c, (l.dropWhile p).head? = some c → p c = false := by
  induction l with
  | nil => intro c h; simp at h
  | cons a rest ih =>
    intro c h
    rw [List.dropWhile_cons] at h
    by_cases ha : p a = true
    · rw [if_pos ha] at h
      exact ih c h
    · rw [if_neg ha] at h
      simp only [List.head?_cons, Option.some_inj] at h
      rw [← h]
      exact Bool.eq_false_iff.2 ha

theorem getLast?_cons_ne_none (c : Char) (l : Str) : (c :: l).getLast? ≠ none := by
  simp [List.getLast?_eq_none_iff]

theorem okHead_ltrim (l : Str) : okHead (ltrim l) = true := by
  unfold okHead
  cases hd : ltrim l with
  | nil => rfl
  | cons c rest =>
    have hc := head_dropWhile_not isWsCh l c (by rw [show l.dropWhile isWsCh = ltrim l from rfl, hd]; rfl)
    simp [hc]

theorem okLast_rtrim (l : Str) : okLast (rtrim l) = true := by
  unfold okLast rtrim
  rw [List.getLast?_reverse]
  cases hd : (l.reverse.dropWhile isWsCh).head? with
  | none => rfl
  | some c =>
    have hc := head_dropWhile_not isWsCh l.reverse c hd
    simp [hc]

theorem okHead_rtrim {l : Str} (h : okHead l = true) : okHead (rtrim l) = true := by
  have hdecomp : l = rtrim l ++ (l.reverse.takeWhile isWsCh).reverse := by
    unfold rtrim
    conv_lhs => rw [← List.reverse_reverse l, ← List.takeWhile_append_dropWhile isWsCh l.reverse]
    rw [List.reverse_append]
  cases hr : rtrim l with
  | nil => rfl
  | cons c rest =>
    rw [hdecomp, hr] at h
    unfold okHead at h ⊢
    simpa using h

theorem okLast_ltrim {l : Str} (h : okLast l = true) : okLast (ltrim l) = true := by
  have hdecomp : l = l.takeWhile isWsCh ++ ltrim l := (List.takeWhile_append_dropWhile _ _).symm
  cases hl : ltrim l with
  | nil => rfl
  | cons c rest =>
    unfold okLast at h ⊢
    rw [hdecomp, hl, List.getLast?_append] at h
    cases hgl : (c :: rest).getLast? with
    | none => exact absurd hgl (getLast?_cons_ne_none c rest)
    | some d =>
      rw [hgl] at h
      exact h

theorem trim_okHead (l : Str) : okHead (trimStr l) = true := okHead_ltrim _

theorem trim_okLast (l : Str) : okLast (trimStr l) = true := okLast_ltrim (okLast_rtrim l)

theorem ltrim_eq_self_head {l : Str} (h : okHead l = true) : ltrim l = l := by
  cases l with
  | nil => rfl
  | cons c rest =>
    unfold okHead at h
    unfold ltrim
    rw [List.dropWhile_cons, if_neg (by simp_all)]

theorem okHead_reverse_of_okLast {l : Str} (h : okLast l = true) : okHead l.reverse = true := by
  cases hrl : l.reverse with
  | nil => rfl
  | cons c rest =>
    have hlast : l.getLast? = some c := by
      rw [← List.head?_reverse, hrl]
      rfl
    unfold okLast at h
    rw [hlast] at h
    unfold okHead
    exact h

theorem rtrim_eq_self_last {l : Str} (h : okLast l = true) : rtrim l = l := by
  unfold rtrim
  rw [show l.reverse.dropWhile isWsCh = ltrim l.reverse from rfl,
    ltrim_eq_self_head (okHead_reverse_of_okLast h), List.reverse_reverse]

theorem trim_eq_self_ok {l : Str} (h1 : okHead l = true) (h2 : okLast l = true) :
    trimStr l = l := by
  unfold trimStr
  rw [rtrim_eq_self_last h2, ltrim_eq_self_head h1]

theorem ltrim_subset {l : Str} : ∀ c ∈ ltrim l, c ∈ l := fun _ hc =>
  (List.dropWhile_sublist _).subset hc

theorem rtrim_subset {l : Str} : ∀ c ∈ rtrim l, c ∈ l := by
  intro c hc
  unfold rtrim at hc
  rw [List.mem_reverse] at hc
  exact List.mem_reverse.1 ((List.dropWhile_sublist _).subset hc)

theorem trim_subset {l : Str} : ∀ c ∈ trimStr l, c ∈ l := fun c hc =>
  rtrim_subset c (ltrim_subset c hc)

/-! ## stripTags lemmas -/

theorem stripTagsAux_noop {l : Str} (h : '<' ∉ l) : ∀ fuel, stripTagsAux fuel l = l := by
  induction l with
  | nil => intro fuel; cases fuel <;> rfl
  | cons c rest ih =>
    intro fuel
    cases fuel with
    | zero => rfl
    | succ f =>
      have hc : c ≠ '<' := fun hc => h (hc ▸ List.mem_cons_self _ _)
      unfold stripTagsAux
      rw [if_neg (by rintro ⟨rfl, -⟩; exact hc rfl)]
      rw [ih (fun hm => h (List.mem_cons_of_mem _ hm)) f]

theorem stripTags_noop {l : Str} (h : '<' ∉ l) : stripTags l = l :=
  stripTagsAux_noop h _

/-! ## fixPunctWS lemmas -/

theorem run_split_ws {c : Char} {rest : Str} (hc : isWsCh c = true)
    (hnoWW : hasWW (c :: rest) = false) :
    rest = [] ∨ ∃ b r2, rest = b :: r2 ∧ isWsCh b = false ∧
      rest.dropWhile isWsCh = b :: r2 ∧ rest.takeWhile isWsCh = [] := by
  cases rest with
  | nil => exact Or.inl rfl
  | cons b r2 =>
    have hb : isWsCh b = false := hasWW_pair hnoWW hc
    exact Or.inr ⟨b, r2, rfl, hb, by simp [List.dropWhile_cons, hb],
      by simp [List.takeWhile_cons, hb]⟩

theorem fix_nil (fuel : ℕ) : fixPunctAux fuel [] = [] := by cases fuel <;> rfl

theorem fix_eq_nonws {a : Char} {rest : Str} (fuel : ℕ) (ha : isWsCh a = false) :
    fixPunctAux (fuel + 1) (a :: rest) = a :: fixPunctAux fuel rest := by
  simp [fixPunctAux, ha]

theorem fix_eq_ws_nil {a : Char} {rest : Str} (fuel : ℕ) (ha : isWsCh a = true)
    (hd : rest.dropWhile isWsCh = []) :
    fixPunctAux (fuel + 1) (a :: rest) = a :: rest := by
  simp [fixPunctAux, ha, hd]

theorem fix_eq_ws_punct {a p : Char} {rest rest2 : Str} (fuel : ℕ) (ha : isWsCh a = true)
    (hd : rest.dropWhile isWsCh = p :: rest2) (hp : isPunctCh p = true) :
    fixPunctAux (fuel + 1) (a :: rest) = p :: fixPunctAux fuel rest2 := by
  simp [fixPunctAux, ha, hd, hp]

theorem fix_eq_ws_nonpunct {a p : Char} {rest rest2 : Str} (fuel : ℕ) (ha : isWsCh a = true)
    (hd : rest.dropWhile isWsCh = p :: rest2) (hp : isPunctCh p = false) :
    fixPunctAux (fuel + 1) (a :: rest) =
      a :: (rest.takeWhile isWsCh ++ p :: fixPunctAux fuel rest2) := by
  simp [fixPunctAux, ha, hd, hp]

theorem fix_mem : ∀ fuel (l : Str), ∀ c ∈ fixPunctAux fuel l, c ∈ l := by
  intro fuel
  induction fuel with
  | zero => exact fun l c hc => hc
  | succ f ih =>
    intro l c hc
    cases l with
    | nil => rw [fix_nil] at hc; exact absurd hc (by simp)
    | cons a rest =>
      cases ha : isWsCh a
      · rw [fix_eq_nonws f ha] at hc
        rcases List.mem_cons.1 hc with rfl | hm
        · exact List.mem_cons_self _ _
        · exact List.mem_cons_of_mem _ (ih rest c hm)
      · cases hd : rest.dropWhile isWsCh with
        | nil => rw [fix_eq_ws_nil f ha hd] at hc; exact hc
        | cons p rest2 =>
          have hsub : ∀ x ∈ p :: rest2, x ∈ rest := by
            intro x hx
            exact (List.dropWhile_sublist isWsCh).subset (hd ▸ hx)
          cases hp : isPunctCh p
          · rw [fix_eq_ws_nonpunct f ha hd hp] at hc
            rcases List.mem_cons.1 hc with rfl | hm
            · exact List.mem_cons_self _ _
            · rcases List.mem_append.1 hm with hm' | hm'
              · exact List.mem_cons_of_mem _ ((List.takeWhile_sublist isWsCh).subset hm')
              · rcases List.mem_cons.1 hm' with rfl | hm''
                · exact List.mem_cons_of_mem _ (hsub c (List.mem_cons_self _ _))
                · exact List.mem_cons_of_mem _
                    (hsub c (List.mem_cons_of_mem _ (ih rest2 c hm'')))
          · rw [fix_eq_ws_punct f ha hd hp] at hc
            rcases List.mem_cons.1 hc with rfl | hm
            · exact List.mem_cons_of_mem _ (hsub c (List.mem_cons_self _ _))
            · exact List.mem_cons_of_mem _
                (hsub c (List.mem_cons_of_mem _ (ih rest2 c hm)))

theorem okWs_of_subset {l out : Str} (hsub : ∀ c ∈ out, c ∈ l) (h : okWs l = true) :
    okWs out = true := by
  rw [okWs_iff] at h ⊢
  exact fun c hc hw => h c (hsub c hc) hw

theorem fix_ne_nil {l : Str} (h : l ≠ []) (fuel : ℕ) : fixPunctAux fuel l ≠ [] := by
  cases fuel with
  | zero => exact h
  | succ f =>
    cases l with
    | nil => exact absurd rfl h
    | cons a rest =>
      cases ha : isWsCh a
      · rw [fix_eq_nonws f ha]; simp
      · cases hd : rest.dropWhile isWsCh with
        | nil => rw [fix_eq_ws_nil f ha hd]; simp
        | cons p rest2 =>
          cases hp : isPunctCh p
          · rw [fix_eq_ws_nonpunct f ha hd hp]; simp
          · rw [fix_eq_ws_punct f ha hd hp]; simp

theorem fix_okHead {l : Str} (h : okHead l = true) (fuel : ℕ) :
    okHead (fixPunctAux fuel l) = true := by
  cases fuel with
  | zero => exact h
  | succ f =>
    cases l with
    | nil => rw [fix_nil]; rfl
    | cons a rest =>
      have ha : isWsCh a = false := by
        unfold okHead at h
        simpa using h
      rw [fix_eq_nonws f ha]
      unfold okHead
      simp [ha]

theorem fix_noWW : ∀ fuel {l : Str}, hasWW l = false →
    hasWW (fixPunctAux fuel l) = false := by
  intro fuel
  induction fuel with
  | zero => exact fun h => h
  | succ f ih =>
    intro l h
    cases l with
    | nil => rw [fix_nil]; rfl
    | cons a rest =>
      cases ha : isWsCh a
      · rw [fix_eq_nonws f ha]
        cases hout : fixPunctAux f rest with
        | nil => rfl
        | cons x xs =>
          rw [← hout, hasWW_cons_nonws ha]
          exact ih (hasWW_tail h)
      · rcases run_split_ws ha h with rfl | ⟨b, r2, rfl, hb, hd, -⟩
        · rw [fix_eq_ws_nil f ha (by rfl)]
          exact h
        · have hr2 : hasWW r2 = false := hasWW_tail (hasWW_tail h)
          cases hp : isPunctCh b
          · rw [fix_eq_ws_nonpunct f ha hd hp]
            rw [show List.takeWhile isWsCh (b :: r2) = [] from by simp [List.takeWhile_cons, hb]]
            rw [List.nil_append]
            rw [show hasWW (a :: b :: fixPunctAux f r2) =
                ((isWsCh a && isWsCh b) || hasWW (b :: fixPunctAux f r2)) from rfl]
            rw [hasWW_cons_nonws hb, ih hr2, hb]
            simp
          · rw [fix_eq_ws_punct f ha hd hp]
            rw [hasWW_cons_nonws (punct_not_ws hp)]
            exact ih hr2

theorem fix_noWP : ∀ fuel {l : Str}, l.length ≤ fuel → hasWW l = false →
    hasWP (fixPunctAux fuel l) = false := by
  intro fuel
  induction fuel with
  | zero =>
    intro l hlen _
    have hl : l = [] := List.length_eq_zero.1 (by omega)
    subst hl
    rfl
  | succ f ih =>
    intro l hlen h
    cases l with
    | nil => rw [fix_nil]; rfl
    | cons a rest =>
      have hlen' : rest.length ≤ f := by
        simp only [List.length_cons] at hlen
        omega
      cases ha : isWsCh a
      · rw [fix_eq_nonws f ha, hasWP_cons_nonws ha]
        exact ih hlen' (hasWW_tail h)
      · rcases run_split_ws ha h with rfl | ⟨b, r2, rfl, hb, hd, -⟩
        · rw [fix_eq_ws_nil f ha (by rfl)]
          rfl
        · have hr2 : hasWW r2 = false := hasWW_tail (hasWW_tail h)
          have hlen2 : r2.length ≤ f := by
            simp only [List.length_cons] at hlen
            omega
          cases hp : isPunctCh b
          · rw [fix_eq_ws_nonpunct f ha hd hp]
            rw [show List.takeWhile isWsCh (b :: r2) = [] from by simp [List.takeWhile_cons, hb]]
            rw [List.nil_append]
            rw [show hasWP (a :: b :: fixPunctAux f r2) =
                ((isWsCh a && isPunctCh b) || hasWP (b :: fixPunctAux f r2)) from rfl]
            rw [hasWP_cons_nonws hb, ih hlen2 hr2, hp]
            simp
          · rw [fix_eq_ws_punct f ha hd hp]
            rw [hasWP_cons_nonws (punct_not_ws hp)]
            exact ih hlen2 hr2

theorem fix_okLast : ∀ fuel {l : Str}, hasWW l = false → okLast l = true →
    okLast (fixPunctAux fuel l) = true := by
  intro fuel
  induction fuel with
  | zero => exact fun _ h => h
  | succ f ih =>
    intro l hww hlast
    cases l with
    | nil => rw [fix_nil]; rfl
    | cons a rest =>
      cases ha : isWsCh a
      · rw [fix_eq_nonws f ha]
        cases hrest : rest with
        | nil =>
          rw [fix_nil, okLast_singleton, ha]
          rfl
        | cons b r =>
          have hne : fixPunctAux f rest ≠ [] := hrest ▸ fix_ne_nil (by simp) f
          rw [← hrest, okLast_cons_ne hne]
          refine ih (hasWW_tail hww) ?_
          rw [hrest] at hlast ⊢
          rw [okLast_cons_ne (by simp)] at hlast
          exact hlast
      · rcases run_split_ws ha hww with rfl | ⟨b, r2, rfl, hb, hd, -⟩
        · rw [okLast_singleton, ha] at hlast
          exact absurd hlast (by simp)
        · have hr2ww : hasWW r2 = false := hasWW_tail (hasWW_tail hww)
          have hr2last : r2 ≠ [] → okLast r2 = true := by
            intro hne
            rw [okLast_cons_ne (by simp), okLast_cons_ne hne] at hlast
            exact hlast
          cases hp : isPunctCh b
          · rw [fix_eq_ws_nonpunct f ha hd hp]
            rw [show List.takeWhile isWsCh (b :: r2) = [] from by simp [List.takeWhile_cons, hb]]
            rw [List.nil_append]
            cases hr2 : r2 with
            | nil =>
              rw [fix_nil, okLast_cons_ne (by simp), okLast_singleton, hb]
              rfl
            | cons v r3 =>
              have hne : fixPunctAux f r2 ≠ [] := hr2 ▸ fix_ne_nil (by simp) f
              rw [← hr2, okLast_cons_ne (by simp), okLast_cons_ne hne]
              exact ih hr2ww (hr2last (by rw [hr2]; simp))
          · rw [fix_eq_ws_punct f ha hd hp]
            cases hr2 : r2 with
            | nil =>
              rw [fix_nil, okLast_singleton, punct_not_ws hp]
              rfl
            | cons v r3 =>
              have hne : fixPunctAux f r2 ≠ [] := hr2 ▸ fix_ne_nil (by simp) f
              rw [← hr2, okLast_cons_ne hne]
              exact ih hr2ww (hr2last (by rw [hr2]; simp))

theorem fix_noop : ∀ fuel {l : Str}, hasWW l = false → hasWP l = false →
    fixPunctAux fuel l = l := by
  intro fuel
  induction fuel with
  | zero => intros; rfl
  | succ f ih =>
    intro l hww hwp
    cases l with
    | nil => rw [fix_nil]
    | cons a rest =>
      cases ha : isWsCh a
      · rw [fix_eq_nonws f ha, ih (hasWW_tail hww) (hasWP_tail hwp)]
      · rcases run_split_ws ha hww with rfl | ⟨b, r2, rfl, hb, hd, -⟩
        · rw [fix_eq_ws_nil f ha (by rfl)]
        · have hp : isPunctCh b = false := hasWP_pair hwp ha
          rw [fix_eq_ws_nonpunct f ha hd hp]
          rw [show List.takeWhile isWsCh (b :: r2) = [] from by simp [List.takeWhile_cons, hb]]
          rw [List.nil_append, ih (hasWW_tail (hasWW_tail hww)) (hasWP_tail (hasWP_tail hwp))]

/-! ## capAfterPunct lemmas -/

theorem lower_not_punct {c : Char} (h : isLowerCh c = true) : isPunctCh c = false := by
  cases hb : isPunctCh c
  · rfl
  · exfalso
    have h1 := isLowerCh_iff.1 h
    have h2 := isPunctCh_iff.1 hb
    omega

theorem cap_nil (fuel : ℕ) : capAfterAux fuel [] = [] := by cases fuel <;> rfl

theorem cap_eq_nonpunct {a : Char} {rest : Str} (fuel : ℕ) (ha : isPunctCh a = false) :
    capAfterAux (fuel + 1) (a :: rest) = a :: capAfterAux fuel rest := by
  simp [capAfterAux, ha]

theorem cap_eq_emptyrun {a : Char} {rest : Str} (fuel : ℕ) (ha : isPunctCh a = true)
    (ht : rest.takeWhile isWsCh = []) :
    capAfterAux (fuel + 1) (a :: rest) = a :: capAfterAux fuel rest := by
  cases hd : rest.dropWhile isWsCh <;> simp [capAfterAux, ha, ht, hd]

theorem cap_eq_emptyafter {a : Char} {rest : Str} (fuel : ℕ) (ha : isPunctCh a = true)
    (hd : rest.dropWhile isWsCh = []) :
    capAfterAux (fuel + 1) (a :: rest) = a :: capAfterAux fuel rest := by
  cases ht : rest.takeWhile isWsCh <;> simp [capAfterAux, ha, ht, hd]

theorem cap_eq_lower {a w l : Char} {rest ws2 rest2 : Str} (fuel : ℕ)
    (ha : isPunctCh a = true) (ht : rest.takeWhile isWsCh = w :: ws2)
    (hd : rest.dropWhile isWsCh = l :: rest2) (hl : isLowerCh l = true) :
    capAfterAux (fuel + 1) (a :: rest) =
      a :: ((w :: ws2) ++ toUpperCh l :: capAfterAux fuel rest2) := by
  simp [capAfterAux, ha, ht, hd, hl]

theorem cap_eq_nolower {a w l : Char} {rest ws2 rest2 : Str} (fuel : ℕ)
    (ha : isPunctCh a = true) (ht : rest.takeWhile isWsCh = w :: ws2)
    (hd : rest.dropWhile isWsCh = l :: rest2) (hl : isLowerCh l = false) :
    capAfterAux (fuel + 1) (a :: rest) = a :: capAfterAux fuel rest := by
  simp [capAfterAux, ha, ht, hd, hl]

theorem cap_head : ∀ (fuel : ℕ) (l : Str), (capAfterAux fuel l).head? = l.head? := by
  intro fuel l
  cases fuel with
  | zero => rfl
  | succ f =>
    cases l with
    | nil => rfl
    | cons a rest =>
      cases ha : isPunctCh a
      · rw [cap_eq_nonpunct f ha]
        rfl
      · cases ht : rest.takeWhile isWsCh with
        | nil => rw [cap_eq_emptyrun f ha ht]; rfl
        | cons w ws2 =>
          cases hd : rest.dropWhile isWsCh with
          | nil => rw [cap_eq_emptyafter f ha hd]; rfl
          | cons l0 rest2 =>
            cases hl : isLowerCh l0
            · rw [cap_eq_nolower f ha ht hd hl]; rfl
            · rw [cap_eq_lower f ha ht hd hl]; rfl

theorem cap_single (fuel : ℕ) (w : Char) : capAfterAux fuel [w] = [w] := by
  cases fuel with
  | zero => rfl
  | succ f =>
    cases ha : isPunctCh w
    · rw [cap_eq_nonpunct f ha, cap_nil]
    · rw [cap_eq_emptyrun f ha List.takeWhile_nil, cap_nil]

theorem cap_rel : ∀ (fuel : ℕ) (l : Str),
    List.Forall₂ (fun a b => b = a ∨ (isLowerCh a = true ∧ b = toUpperCh a)) l
      (capAfterAux fuel l) := by
  intro fuel
  induction fuel with
  | zero => exact fun l => List.forall₂_same.2 fun x _ => Or.inl rfl
  | succ f ih =>
    intro l
    cases l with
    | nil => rw [cap_nil]; exact List.Forall₂.nil
    | cons a rest =>
      cases ha : isPunctCh a
      · rw [cap_eq_nonpunct f ha]
        exact List.Forall₂.cons (Or.inl rfl) (ih rest)
      · cases ht : rest.takeWhile isWsCh with
        | nil =>
          rw [cap_eq_emptyrun f ha ht]
          exact List.Forall₂.cons (Or.inl rfl) (ih rest)
        | cons w ws2 =>
          cases hd : rest.dropWhile isWsCh with
          | nil =>
            rw [cap_eq_emptyafter f ha hd]
            exact List.Forall₂.cons (Or.inl rfl) (ih rest)
          | cons l0 rest2 =>
            cases hl : isLowerCh l0
            · rw [cap_eq_nolower f ha ht hd hl]
              exact List.Forall₂.cons (Or.inl rfl) (ih rest)
            · rw [cap_eq_lower f ha ht hd hl]
              have hdecomp : rest = (w :: ws2) ++ l0 :: rest2 := by
                rw [← ht, ← hd, List.takeWhile_append_dropWhile]
              rw [hdecomp]
              refine List.Forall₂.cons (Or.inl rfl) ?_
              have h1 : List.Forall₂
                  (fun a b => b = a ∨ (isLowerCh a = true ∧ b = toUpperCh a))
                  (w :: ws2) (w :: ws2) :=
                List.forall₂_same.2 fun x _ => Or.inl rfl
              have h2 : List.Forall₂
                  (fun a b => b = a ∨ (isLowerCh a = true ∧ b = toUpperCh a))
                  (l0 :: rest2) (toUpperCh l0 :: capAfterAux f rest2) :=
                List.Forall₂.cons (Or.inr ⟨hl, rfl⟩) (ih rest2)
              exact List.rel_append h1 h2

theorem capRel_ws {a b : Char}
    (h : b = a ∨ (isLowerCh a = true ∧ b = toUpperCh a)) : isWsCh b = isWsCh a := by
  rcases h with rfl | ⟨hl, rfl⟩
  · rfl
  · rw [(toUpperCh_facts hl).2.1, lower_not_ws hl]

theorem capRel_punct {a b : Char}
    (h : b = a ∨ (isLowerCh a = true ∧ b = toUpperCh a)) : isPunctCh b = isPunctCh a := by
  rcases h with rfl | ⟨hl, rfl⟩
  · rfl
  · rw [(toUpperCh_facts hl).2.2.1, lower_not_punct hl]

theorem capRel_space {a b : Char}
    (h : b = a ∨ (isLowerCh a = true ∧ b = toUpperCh a)) (hw : isWsCh b = true) : b = a := by
  rcases h with rfl | ⟨hl, rfl⟩
  · rfl
  · rw [(toUpperCh_facts hl).2.1] at hw
    exact absurd hw (by simp)

theorem forall₂_okWs {l out : Str}
    (hrel : List.Forall₂ (fun a b => b = a ∨ (isLowerCh a = true ∧ b = toUpperCh a)) l out)
    (h : okWs l = true) : okWs out = true := by
  induction hrel with
  | nil => rfl
  | @cons a b l' out' hab htail ih =>
    rw [okWs_iff] at h ⊢
    intro c hc hw
    rcases List.mem_cons.1 hc with rfl | hm
    · have hba : c = a := capRel_space hab hw
      rw [hba]
      exact h a (List.mem_cons_self _ _) (hba ▸ hw)
    · refine okWs_iff.1 (ih ?_) c hm hw
      rw [okWs_iff]
      exact fun d hd hdw => h d (List.mem_cons_of_mem _ hd) hdw

theorem forall₂_noWW {l out : Str}
    (hrel : List.Forall₂ (fun a b => b = a ∨ (isLowerCh a = true ∧ b = toUpperCh a)) l out)
    (h : hasWW l = false) : hasWW out = false := by
  induction hrel with
  | nil => rfl
  | @cons a b l' out' hab htail ih =>
    cases htail with
    | nil => rfl
    | @cons a2 b2 l'' out'' hab2 htail2 =>
      rw [show hasWW (b :: b2 :: out'') = ((isWsCh b && isWsCh b2) || hasWW (b2 :: out'')) from rfl]
      rw [capRel_ws hab, capRel_ws hab2]
      rw [show ((isWsCh a && isWsCh a2) : Bool) = false from by
        have := h
        simp only [hasWW, Bool.or_eq_false_iff] at this
        exact this.1]
      rw [ih (hasWW_tail h)]
      rfl

theorem forall₂_noWP {l out : Str}
    (hrel : List.Forall₂ (fun a b => b = a ∨ (isLowerCh a = true ∧ b = toUpperCh a)) l out)
    (h : hasWP l = false) : hasWP out = false := by
  induction hrel with
  | nil => rfl
  | @cons a b l' out' hab htail ih =>
    cases htail with
    | nil => rfl
    | @cons a2 b2 l'' out'' hab2 htail2 =>
      rw [show hasWP (b :: b2 :: out'') = ((isWsCh b && isPunctCh b2) || hasWP (b2 :: out'')) from rfl]
      rw [capRel_ws hab, capRel_punct hab2]
      rw [show ((isWsCh a && isPunctCh a2) : Bool) = false from by
        have := h
        simp only [hasWP, Bool.or_eq_false_iff] at this
        exact this.1]
      rw [ih (hasWP_tail h)]
      rfl

theorem forall₂_okLast {l out : Str}
    (hrel : List.Forall₂ (fun a b => b = a ∨ (isLowerCh a = true ∧ b = toUpperCh a)) l out)
    (h : okLast l = true) : okLast out = true := by
  induction hrel with
  | nil => rfl
  | @cons a b l' out' hab htail ih =>
    cases htail with
    | nil =>
      rw [okLast_singleton] at h ⊢
      rw [capRel_ws hab]
      exact h
    | @cons a2 b2 l'' out'' hab2 htail2 =>
      rw [okLast_cons_ne (by simp)]
      rw [okLast_cons_ne (by simp)] at h
      exact ih h

theorem forall₂_not_mem {l out : Str} {x : Char}
    (hrel : List.Forall₂ (fun a b => b = a ∨ (isLowerCh a = true ∧ b = toUpperCh a)) l out)
    (hx : ∀ d, isLowerCh d = true → toUpperCh d ≠ x) (h : x ∉ l) : x ∉ out := by
  induction hrel with
  | nil => exact h
  | @cons a b l' out' hab htail ih =>
    intro hm
    rcases List.mem_cons.1 hm with rfl | hm'
    · rcases hab with rfl | ⟨hl, rfl⟩
      · exact h (List.mem_cons_self _ _)
      · exact hx a hl rfl
    · exact ih (fun hm2 => h (List.mem_cons_of_mem _ hm2)) hm'

theorem takeWhile_nil_head {p : Char → Bool} {b : Char} {r : Str}
    (ht : (b :: r).takeWhile p = []) : p b = false := by
  rw [List.takeWhile_cons] at ht
  by_cases hb : p b = true
  · rw [if_pos hb] at ht
    exact absurd ht (by simp)
  · simpa using hb

theorem cap_noPWL : ∀ fuel {l : Str}, l.length ≤ fuel → hasWW l = false →
    hasPWL (capAfterAux fuel l) = false := by
  intro fuel
  induction fuel with
  | zero =>
    intro l hlen _
    have hl : l = [] := List.length_eq_zero.1 (by omega)
    subst hl
    rfl
  | succ f ih =>
    intro l hlen hww
    cases l with
    | nil => rw [cap_nil]; rfl
    | cons c rest =>
      have hlen' : rest.length ≤ f := by
        simp only [List.length_cons] at hlen
        omega
      cases hc : isPunctCh c
      · rw [cap_eq_nonpunct f hc, hasPWL_cons_nonpunct hc]
        exact ih hlen' (hasWW_tail hww)
      · rcases run_split_punct (hasWW_tail hww) with ⟨ht, hd⟩ | ⟨w, rest', hre, hwsw, ht, hd⟩
        · rw [cap_eq_emptyrun f hc ht]
          rcases hXe : capAfterAux f rest with - | ⟨b', X'⟩
          · rfl
          · have hb' : isWsCh b' = false := by
              have hh := cap_head f rest
              rw [hXe] at hh
              cases hrest : rest with
              | nil =>
                rw [hrest, cap_nil] at hXe
                exact absurd hXe (by simp)
              | cons b r2 =>
                have hb : isWsCh b = false := takeWhile_nil_head (hrest ▸ ht)
                have hbb : b' = b := by rw [hrest] at hh; simpa using hh
                rw [hbb]
                exact hb
            rw [hasPWL_cons_second_nonws hb', ← hXe]
            exact ih hlen' (hasWW_tail hww)
        · subst hre
          cases hrest' : rest' with
          | nil =>
            have hd2 : List.dropWhile isWsCh [w] = ([] : Str) := by rw [← hrest']; exact hd
            rw [cap_eq_emptyafter f hc hd2, cap_single]
            rfl
          | cons l0 rest2 =>
            have ht2 : List.takeWhile isWsCh (w :: l0 :: rest2) = [w] := by
              rw [← hrest']; exact ht
            have hd2 : List.dropWhile isWsCh (w :: l0 :: rest2) = l0 :: rest2 := by
              rw [← hrest']; exact hd
            cases hl : isLowerCh l0
            · rw [cap_eq_nolower f hc ht2 hd2 hl]
              have hlen'' : (w :: l0 :: rest2).length ≤ f := by rw [← hrest']; exact hlen'
              have hww'' : hasWW (w :: l0 :: rest2) = false := by
                have h0 := hasWW_tail hww
                rw [hrest'] at h0
                exact h0
              have hXPWL : hasPWL (capAfterAux f (w :: l0 :: rest2)) = false := ih hlen'' hww''
              rcases hXe : capAfterAux f (w :: l0 :: rest2) with - | ⟨w', X'⟩
              · rfl
              · have hw' : w' = w := by
                  have hh := cap_head f (w :: l0 :: rest2)
                  rw [hXe] at hh
                  simpa using hh
                rw [hw'] at hXe
                rw [hw']
                rcases hX'e : X' with - | ⟨x0, X''⟩
                · rfl
                · have hx0 : x0 = l0 := by
                    cases hf : f with
                    | zero =>
                      have h00 : capAfterAux 0 (w :: l0 :: rest2) = w :: l0 :: rest2 := rfl
                      rw [hf, h00, hX'e] at hXe
                      have h01 : (l0 :: rest2 : Str) = x0 :: X'' :=
                        List.tail_eq_of_cons_eq hXe
                      exact (List.head_eq_of_cons_eq h01).symm
                    | succ g =>
                      have hnp : isPunctCh w = false := ws_not_punct hwsw
                      rw [hf, cap_eq_nonpunct g hnp] at hXe
                      have htl : X' = capAfterAux g (l0 :: rest2) :=
                        (List.tail_eq_of_cons_eq hXe).symm
                      have hh := cap_head g (l0 :: rest2)
                      rw [← htl, hX'e] at hh
                      simpa using hh
                  have hlx : isLowerCh x0 = false := by rw [hx0]; exact hl
                  rw [show hasPWL (c :: w :: x0 :: X'') =
                      ((isPunctCh c && isWsCh w && isLowerCh x0) || hasPWL (w :: x0 :: X'')) from rfl]
                  rw [hlx]
                  rw [show ((isPunctCh c && isWsCh w && false) : Bool) = false from by simp]
                  rw [← hX'e, ← hXe, hXPWL]
                  rfl
            · rw [cap_eq_lower f hc ht2 hd2 hl]
              have hlen2 : rest2.length ≤ f := by
                have h0 := hlen'
                rw [hrest'] at h0
                simp only [List.length_cons] at h0
                omega
              have hww2 : hasWW rest2 = false := by
                have h0 := hasWW_tail (hasWW_tail hww)
                rw [hrest'] at h0
                exact hasWW_tail h0
              have hXPWL : hasPWL (capAfterAux f rest2) = false := ih hlen2 hww2
              obtain ⟨hUl, hUw, hUp, -⟩ := toUpperCh_facts hl
              rw [List.cons_append, List.nil_append]
              rw [show hasPWL (c :: w :: toUpperCh l0 :: capAfterAux f rest2) =
                  ((isPunctCh c && isWsCh w && isLowerCh (toUpperCh l0)) ||
                    hasPWL (w :: toUpperCh l0 :: capAfterAux f rest2)) from rfl]
              rw [hUl]
              rw [show ((isPunctCh c && isWsCh w && false) : Bool) = false from by simp]
              rw [hasPWL_cons_second_nonws hUw, hasPWL_cons_nonpunct hUp, hXPWL]
              rfl

theorem cap_noop : ∀ fuel {l : Str}, hasWW l = false → hasPWL l = false →
    capAfterAux fuel l = l := by
  intro fuel
  induction fuel with
  | zero => intros; rfl
  | succ f ih =>
    intro l hww hpwl
    cases l with
    | nil => rw [cap_nil]
    | cons c rest =>
      cases hc : isPunctCh c
      · rw [cap_eq_nonpunct f hc, ih (hasWW_tail hww) (hasPWL_tail hpwl)]
      · rcases run_split_punct (hasWW_tail hww) with ⟨ht, -⟩ | ⟨w, rest', hre, hwsw, ht, hd⟩
        · rw [cap_eq_emptyrun f hc ht, ih (hasWW_tail hww) (hasPWL_tail hpwl)]
        · subst hre
          cases hrest' : rest' with
          | nil =>
            have hd2 : List.dropWhile isWsCh [w] = ([] : Str) := by rw [← hrest']; exact hd
            rw [cap_eq_emptyafter f hc hd2, cap_single]
          | cons l0 rest2 =>
            have ht2 : List.takeWhile isWsCh (w :: l0 :: rest2) = [w] := by
              rw [← hrest']; exact ht
            have hd2 : List.dropWhile isWsCh (w :: l0 :: rest2) = l0 :: rest2 := by
              rw [← hrest']; exact hd
            cases hl : isLowerCh l0
            · rw [cap_eq_nolower f hc ht2 hd2 hl]
              have hww2 : hasWW (w :: l0 :: rest2) = false := by
                have h0 := hasWW_tail hww
                rw [hrest'] at h0
                exact h0
              have hpwl2 : hasPWL (w :: l0 :: rest2) = false := by
                have h0 := hasPWL_tail hpwl
                rw [hrest'] at h0
                exact h0
              rw [ih hww2 hpwl2]
            · exfalso
              have h3 : hasPWL (c :: w :: l0 :: rest2) = false := by
                rw [← hrest']; exact hpwl
              exact hasPWL_triple h3 ⟨hc, hwsw, hl⟩

/-! ## capFirst lemmas -/

theorem capFirst_cons (c : Char) (rest : Str) :
    capFirst (c :: rest) = if isLowerCh c = true then toUpperCh c :: rest else c :: rest := rfl

theorem headNotLower_cons (c : Char) (rest : Str) :
    headNotLower (c :: rest) = !isLowerCh c := rfl

theorem capFirst_noop {l : Str} (h : headNotLower l = true) : capFirst l = l := by
  cases l with
  | nil => rfl
  | cons c rest =>
    rw [headNotLower_cons] at h
    rw [capFirst_cons, if_neg (by simpa using h)]

theorem capFirst_headNotLower (l : Str) : headNotLower (capFirst l) = true := by
  cases l with
  | nil => rfl
  | cons c rest =>
    rw [capFirst_cons]
    cases hc : isLowerCh c
    · rw [if_neg (by simp [hc]), headNotLower_cons, hc]
      rfl
    · rw [if_pos rfl,headNotLower_cons, (toUpperCh_facts hc).1]
      rfl

theorem capFirst_okWs {l : Str} (h : okWs l = true) : okWs (capFirst l) = true := by
  cases l with
  | nil => rfl
  | cons c rest =>
    rw [capFirst_cons]
    cases hc : isLowerCh c
    · rw [if_neg (by simp [hc])]
      exact h
    · rw [if_pos rfl]
      rw [okWs_iff] at h ⊢
      intro d hd hw
      rcases List.mem_cons.1 hd with rfl | hm
      · rw [(toUpperCh_facts hc).2.1] at hw
        exact absurd hw (by simp)
      · exact h d (List.mem_cons_of_mem _ hm) hw

theorem capFirst_noWW {l : Str} (h : hasWW l = false) : hasWW (capFirst l) = false := by
  cases l with
  | nil => rfl
  | cons c rest =>
    rw [capFirst_cons]
    cases hc : isLowerCh c
    · rw [if_neg (by simp [hc])]
      exact h
    · rw [if_pos rfl,hasWW_cons_nonws (toUpperCh_facts hc).2.1]
      exact hasWW_tail h

theorem capFirst_noWP {l : Str} (h : hasWP l = false) : hasWP (capFirst l) = false := by
  cases l with
  | nil => rfl
  | cons c rest =>
    rw [capFirst_cons]
    cases hc : isLowerCh c
    · rw [if_neg (by simp [hc])]
      exact h
    · rw [if_pos rfl,hasWP_cons_nonws (toUpperCh_facts hc).2.1]
      exact hasWP_tail h

theorem capFirst_noPWL {l : Str} (h : hasPWL l = false) : hasPWL (capFirst l) = false := by
  cases l with
  | nil => rfl
  | cons c rest =>
    rw [capFirst_cons]
    cases hc : isLowerCh c
    · rw [if_neg (by simp [hc])]
      exact h
    · rw [if_pos rfl,hasPWL_cons_nonpunct (toUpperCh_facts hc).2.2.1]
      exact hasPWL_tail h

theorem capFirst_okLast {l : Str} (h : okLast l = true) : okLast (capFirst l) = true := by
  cases l with
  | nil => rfl
  | cons c rest =>
    rw [capFirst_cons]
    cases hc : isLowerCh c
    · rw [if_neg (by simp [hc])]
      exact h
    · rw [if_pos rfl]
      cases hrest : rest with
      | nil =>
        rw [okLast_singleton, (toUpperCh_facts hc).2.1]
        rfl
      | cons b r =>
        rw [okLast_cons_ne (by simp)]
        rw [hrest, okLast_cons_ne (by simp)] at h
        exact h

theorem capFirst_okHead {l : Str} (h : okHead l = true) : okHead (capFirst l) = true := by
  cases l with
  | nil => rfl
  | cons c rest =>
    rw [capFirst_cons]
    cases hc : isLowerCh c
    · rw [if_neg (by simp [hc])]
      exact h
    · rw [if_pos rfl]
      unfold okHead
      simp [(toUpperCh_facts hc).2.1]

theorem capFirst_not_mem {l : Str} {x : Char}
    (hx : ∀ d, isLowerCh d = true → toUpperCh d ≠ x) (h : x ∉ l) : x ∉ capFirst l := by
  cases l with
  | nil => exact h
  | cons c rest =>
    rw [capFirst_cons]
    cases hc : isLowerCh c
    · rw [if_neg (by simp [hc])]
      exact h
    · rw [if_pos rfl]
      intro hm
      rcases List.mem_cons.1 hm with heq | hm'
      · exact hx c hc heq.symm
      · exact h (List.mem_cons_of_mem _ hm')

/-! ## Normalizer pipeline invariants -/

theorem okHead_head? {l1 l2 : Str} (h : l1.head? = l2.head?) : okHead l1 = okHead l2 := by
  cases l1 with
  | nil =>
    cases l2 with
    | nil => rfl
    | cons b r2 => exact absurd h (by simp)
  | cons a r1 =>
    cases l2 with
    | nil => exact absurd h (by simp)
    | cons b r2 =>
      have hab : a = b := by simpa using h
      rw [show okHead (a :: r1) = !isWsCh a from rfl,
        show okHead (b :: r2) = !isWsCh b from rfl, hab]

theorem cap_okHead {l : Str} (h : okHead l = true) (fuel : ℕ) :
    okHead (capAfterAux fuel l) = true := by
  rw [okHead_head? (cap_head fuel l)]
  exact h

theorem collapse_okHead {l : Str} (h : okHead l = true) : okHead (collapseWS l) = true := by
  cases l with
  | nil => rfl
  | cons a rest =>
    have ha : isWsCh a = false := by
      rw [show okHead (a :: rest) = !isWsCh a from rfl] at h
      simpa using h
    rw [collapse_head_eq ha, show okHead (a :: collapseWS rest) = !isWsCh a from rfl, ha]
    rfl

theorem not_newline_of_okWs {l : Str} (h : okWs l = true) : '\n' ∉ l := by
  intro hm
  have h2 := okWs_iff.1 h '\n' hm (by decide)
  exact absurd h2 (by decide)

theorem clean_invariants {x : Str} (h : '<' ∉ x) :
    okWs (cleanTextForSRT x) = true ∧ hasWW (cleanTextForSRT x) = false ∧
      hasWP (cleanTextForSRT x) = false ∧ hasPWL (cleanTextForSRT x) = false ∧
      okHead (cleanTextForSRT x) = true ∧ okLast (cleanTextForSRT x) = true ∧
      headNotLower (cleanTextForSRT x) = true ∧ '<' ∉ cleanTextForSRT x := by
  by_cases hx : x = []
  · subst hx
    exact ⟨by decide, by decide, by decide, by decide, by decide, by decide, by decide,
      by decide⟩
  · have hclean : cleanTextForSRT x =
        capFirst (capAfterPunct (fixPunctWS (stripTags (collapseWS (trimStr x))))) := by
      unfold cleanTextForSRT
      rw [if_neg hx]
    have htmem : '<' ∉ trimStr x := fun hm => h (trim_subset _ hm)
    have hthead := trim_okHead x
    have htlast := trim_okLast x
    have hcws := collapse_okWs (trimStr x)
    have hcww := collapse_noWW (trimStr x)
    have hclast := collapse_okLast htlast
    have hchead := collapse_okHead hthead
    have hcmem : '<' ∉ collapseWS (trimStr x) := by
      intro hm
      rcases collapse_mem hm with hm' | hm'
      · exact htmem hm'
      · exact absurd hm' (by decide)
    have hstrip : stripTags (collapseWS (trimStr x)) = collapseWS (trimStr x) :=
      stripTags_noop hcmem
    rw [hclean, hstrip]
    set c := collapseWS (trimStr x) with hcdef
    have hfws : okWs (fixPunctWS c) = true := okWs_of_subset (fix_mem c.length c) hcws
    have hfww : hasWW (fixPunctWS c) = false := fix_noWW c.length hcww
    have hfwp : hasWP (fixPunctWS c) = false := fix_noWP c.length le_rfl hcww
    have hfhead : okHead (fixPunctWS c) = true := fix_okHead hchead c.length
    have hflast : okLast (fixPunctWS c) = true := fix_okLast c.length hcww hclast
    have hfmem : '<' ∉ fixPunctWS c := fun hm => hcmem (fix_mem c.length c '<' hm)
    set fp := fixPunctWS c with hfpdef
    have hrel : List.Forall₂ (fun a b => b = a ∨ (isLowerCh a = true ∧ b = toUpperCh a))
        fp (capAfterPunct fp) := cap_rel fp.length fp
    have hups : ∀ d, isLowerCh d = true → toUpperCh d ≠ '<' :=
      fun d hd => (toUpperCh_facts hd).2.2.2.1
    have hcaws := forall₂_okWs hrel hfws
    have hcaww := forall₂_noWW hrel hfww
    have hcawp := forall₂_noWP hrel hfwp
    have hcalast := forall₂_okLast hrel hflast
    have hcapwl : hasPWL (capAfterPunct fp) = false := cap_noPWL fp.length le_rfl hfww
    have hcahead : okHead (capAfterPunct fp) = true := cap_okHead hfhead fp.length
    have hcamem : '<' ∉ capAfterPunct fp := forall₂_not_mem hrel hups hfmem
    exact ⟨capFirst_okWs hcaws, capFirst_noWW hcaww, capFirst_noWP hcawp,
      capFirst_noPWL hcapwl, capFirst_okHead hcahead, capFirst_okLast hcalast,
      capFirst_headNotLower _, capFirst_not_mem hups hcamem⟩

theorem clean_fixed {y : Str} (hws : okWs y = true) (hww : hasWW y = false)
    (hwp : hasWP y = false) (hpwl : hasPWL y = false) (hhead : okHead y = true)
    (hlast : okLast y = true) (hhnl : headNotLower y = true) (hmem : '<' ∉ y) :
    cleanTextForSRT y = y := by
  by_cases hy : y = []
  · subst hy
    rfl
  · have hstep : cleanTextForSRT y =
        capFirst (capAfterPunct (fixPunctWS (stripTags (collapseWS (trimStr y))))) := by
      unfold cleanTextForSRT
      rw [if_neg hy]
    rw [hstep, trim_eq_self_ok hhead hlast, collapse_eq_self hws hww, stripTags_noop hmem]
    rw [show fixPunctWS y = y from fix_noop y.length hww hwp]
    rw [show capAfterPunct y = y from cap_noop y.length hww hpwl]
    exact capFirst_noop hhnl

/-! ## Serializer round-trip lemmas -/

theorem stripTagsAux_subset : ∀ fuel (l : Str), ∀ c ∈ stripTagsAux fuel l, c ∈ l := by
  intro fuel
  induction fuel with
  | zero => exact fun l c hc => hc
  | succ f ih =>
    intro l c hc
    cases l with
    | nil => exact hc
    | cons a rest =>
      by_cases h : a = '<' ∧ '>' ∈ rest
      · rw [show stripTagsAux (f + 1) (a :: rest) =
            stripTagsAux f ((rest.dropWhile (· ≠ '>')).tail) from by
          simp [stripTagsAux, h]] at hc
        have h2 := ih _ c hc
        have h3 : c ∈ rest.dropWhile (· ≠ '>') := (List.tail_sublist _).subset h2
        exact List.mem_cons_of_mem _ ((List.dropWhile_sublist _).subset h3)
      · rw [show stripTagsAux (f + 1) (a :: rest) = a :: stripTagsAux f rest from by
          simp [stripTagsAux, h]] at hc
        rcases List.mem_cons.1 hc with rfl | hm
        · exact List.mem_cons_self _ _
        · exact List.mem_cons_of_mem _ (ih rest c hm)

theorem clean_okWs (x : Str) : okWs (cleanTextForSRT x) = true := by
  by_cases hx : x = []
  · subst hx
    decide
  · have hclean : cleanTextForSRT x =
        capFirst (capAfterPunct (fixPunctWS (stripTags (collapseWS (trimStr x))))) := by
      unfold cleanTextForSRT
      rw [if_neg hx]
    rw [hclean]
    have h1 := collapse_okWs (trimStr x)
    have h2 : okWs (stripTags (collapseWS (trimStr x))) = true :=
      okWs_of_subset (stripTagsAux_subset _ _) h1
    have h3 : okWs (fixPunctWS (stripTags (collapseWS (trimStr x)))) = true :=
      okWs_of_subset (fix_mem _ _) h2
    exact capFirst_okWs (forall₂_okWs (cap_rel _ _) h3)

theorem clean_no_nl (x : Str) : '\n' ∉ cleanTextForSRT x :=
  not_newline_of_okWs (clean_okWs x)

theorem codec_msFloor {x : ℚ} (hx : 0 ≤ x) :
    srtTimeToSeconds (secondsToSRTTime x) = some (msFloor x) := by
  rw [secondsToSRTTime_eq x hx, srt_parse_tsStr, time_floor_sum x hx]

theorem msFloor_le (x : ℚ) : msFloor x ≤ x := by
  rw [msFloor, rat_floor_eq, div_le_iff₀ (by norm_num : (0:ℚ) < 1000)]
  calc ((⌊1000 * x⌋ : ℤ) : ℚ) ≤ 1000 * x := Int.floor_le _
  _ = x * 1000 := by ring

theorem msFloor_close (x : ℚ) : x - msFloor x < 1 / 1000 := by
  rw [msFloor, rat_floor_eq, sub_lt_iff_lt_add, div_add_div_same,
    lt_div_iff₀ (by norm_num : (0:ℚ) < 1000)]
  calc x * 1000 = 1000 * x := by ring
  _ < (⌊1000 * x⌋ : ℚ) + 1 := Int.lt_floor_add_one _
  _ = ((1 : ℚ) + ⌊1000 * x⌋) := by ring

theorem natToStrAux_len : ∀ (fuel n k : ℕ), 0 < k → n < 10 ^ k →
    (natToStrAux fuel n).length ≤ k := by
  intro fuel
  induction fuel with
  | zero =>
    intro n k hk _
    simp [natToStrAux]
  | succ f ih =>
    intro n k hk hn
    by_cases h : n < 10
    · rw [show natToStrAux (f + 1) n = [digitChar n] from by simp [natToStrAux, h]]
      simpa using hk
    · rw [show natToStrAux (f + 1) n =
          natToStrAux f (n / 10) ++ [digitChar (n % 10)] from by simp [natToStrAux, h]]
      have hk2 : 2 ≤ k := by
        by_contra hcon
        have hk1 : k = 1 := by omega
        rw [hk1, pow_one] at hn
        omega
      have hd : n / 10 < 10 ^ (k - 1) := by
        rw [Nat.div_lt_iff_lt_mul (by norm_num : 0 < 10)]
        calc n < 10 ^ k := hn
        _ = 10 ^ (k - 1) * 10 := by
          rw [← pow_succ]
          congr 1
          omega
      have hlen := ih (n / 10) (k - 1) (by omega) hd
      simp only [List.length_append, List.length_cons, List.length_nil]
      omega

theorem natToStr_len {n k : ℕ} (hk : 0 < k) (hn : n < 10 ^ k) :
    (natToStr n).length ≤ k := natToStrAux_len (n + 1) n k hk hn

theorem pad_length {w : ℕ} {s : Str} (h : s.length ≤ w) : (pad w s).length = w := by
  simp only [pad, List.length_append, List.length_replicate]
  omega

theorem len2_explicit : ∀ {l : Str}, l.length = 2 → ∃ a b, l = [a, b] := by
  intro l h
  match l, h with
  | [a, b], _ => exact ⟨a, b, rfl⟩

theorem len3_explicit : ∀ {l : Str}, l.length = 3 → ∃ a b c, l = [a, b, c] := by
  intro l h
  match l, h with
  | [a, b, c], _ => exact ⟨a, b, c, rfl⟩

theorem pad2_natToStr_len {n : ℕ} (h : n ≤ 99) : (pad 2 (natToStr n)).length = 2 :=
  pad_length (natToStr_len (by norm_num) (by omega : n < 10 ^ 2))

theorem pad3_natToStr_len {n : ℕ} (h : n ≤ 999) : (pad 3 (natToStr n)).length = 3 :=
  pad_length (natToStr_len (by norm_num) (by omega : n < 10 ^ 3))

theorem isTS12_tsStr {H MN SC MS : ℕ} (hH : H ≤ 99) (hMN : MN ≤ 99) (hSC : SC ≤ 99)
    (hMS : MS ≤ 999) : isTS12 (tsStr H MN SC MS) = true := by
  have hdig : ∀ X w, ∀ c ∈ pad w (natToStr X), c.isDigit = true := fun X w =>
    pad_digits (natToStr_digits X) w
  obtain ⟨a1, a2, ea⟩ := len2_explicit (pad2_natToStr_len hH)
  obtain ⟨b1, b2, eb⟩ := len2_explicit (pad2_natToStr_len hMN)
  obtain ⟨c1, c2, ec⟩ := len2_explicit (pad2_natToStr_len hSC)
  obtain ⟨d1, d2, d3, ed⟩ := len3_explicit (pad3_natToStr_len hMS)
  have ha1 : a1.isDigit = true := hdig H 2 a1 (ea ▸ by simp)
  have ha2 : a2.isDigit = true := hdig H 2 a2 (ea ▸ by simp)
  have hb1 : b1.isDigit = true := hdig MN 2 b1 (eb ▸ by simp)
  have hb2 : b2.isDigit = true := hdig MN 2 b2 (eb ▸ by simp)
  have hc1 : c1.isDigit = true := hdig SC 2 c1 (ec ▸ by simp)
  have hc2 : c2.isDigit = true := hdig SC 2 c2 (ec ▸ by simp)
  have hd1 : d1.isDigit = true := hdig MS 3 d1 (ed ▸ by simp)
  have hd2 : d2.isDigit = true := hdig MS 3 d2 (ed ▸ by simp)
  have hd3 : d3.isDigit = true := hdig MS 3 d3 (ed ▸ by simp)
  rw [tsStr, ea, eb, ec, ed]
  show isTS12 [a1, a2, ':', b1, b2, ':', c1, c2, ',', d1, d2, d3] = true
  simp [isTS12, ha1, ha2, hb1, hb2, hc1, hc2, hd1, hd2, hd3]

theorem tsStr_len {H MN SC MS : ℕ} (hH : H ≤ 99) (hMN : MN ≤ 99) (hSC : SC ≤ 99)
    (hMS : MS ≤ 999) : (tsStr H MN SC MS).length = 12 := by
  simp [tsStr, pad2_natToStr_len hH, pad2_natToStr_len hMN, pad2_natToStr_len hSC,
    pad3_natToStr_len hMS]

theorem tsStr_chars {H MN SC MS : ℕ} :
    ∀ c ∈ tsStr H MN SC MS, c.isDigit = true ∨ c = ':' ∨ c = ',' := by
  have hdig : ∀ X w, ∀ c ∈ pad w (natToStr X), c.isDigit = true := fun X w =>
    pad_digits (natToStr_digits X) w
  intro c hc
  simp only [tsStr, List.mem_append, List.mem_cons] at hc
  rcases hc with ((h | (h | h)) | (h | h)) | (h | h)
  · exact Or.inl (hdig H 2 c h)
  · exact Or.inr (Or.inl h)
  · exact Or.inl (hdig MN 2 c h)
  · exact Or.inr (Or.inl h)
  · exact Or.inl (hdig SC 2 c h)
  · exact Or.inr (Or.inr h)
  · exact Or.inl (hdig MS 3 c h)

theorem ts_components {x : ℚ} (hx : 0 ≤ x) (hlt : x < 360000) :
    (⌊x / 3600⌋).toNat ≤ 99 ∧ (⌊jsMod x 3600 / 60⌋).toNat ≤ 59 ∧
      (⌊jsMod x 60⌋).toNat ≤ 59 ∧ (⌊jsMod x 1 * 1000⌋).toNat ≤ 999 := by
  refine ⟨?_, ?_, ?_, ?_⟩
  · have h1 : ⌊x / 3600⌋ < 100 := by
      apply Int.floor_lt.2
      push_cast
      rw [div_lt_iff₀ (by norm_num : (0:ℚ) < 3600)]
      linarith
    omega
  · have h1 : ⌊jsMod x 3600 / 60⌋ < 60 := by
      apply Int.floor_lt.2
      push_cast
      rw [div_lt_iff₀ (by norm_num : (0:ℚ) < 60)]
      have := jsMod_lt hx (by norm_num : (0:ℚ) < 3600)
      linarith
    omega
  · have h1 : ⌊jsMod x 60⌋ < 60 := by
      apply Int.floor_lt.2
      push_cast
      exact jsMod_lt hx (by norm_num : (0:ℚ) < 60)
    omega
  · have h1 : ⌊jsMod x 1 * 1000⌋ < 1000 := by
      apply Int.floor_lt.2
      push_cast
      have := jsMod_lt hx (by norm_num : (0:ℚ) < 1)
      linarith
    omega

theorem sts_isTS12 {x : ℚ} (hx : 0 ≤ x) (hlt : x < 360000) :
    isTS12 (secondsToSRTTime x) = true := by
  rw [secondsToSRTTime_eq x hx]
  obtain ⟨h1, h2, h3, h4⟩ := ts_components hx hlt
  exact isTS12_tsStr h1 (by omega) (by omega) h4

theorem sts_len {x : ℚ} (hx : 0 ≤ x) (hlt : x < 360000) :
    (secondsToSRTTime x).length = 12 := by
  rw [secondsToSRTTime_eq x hx]
  obtain ⟨h1, h2, h3, h4⟩ := ts_components hx hlt
  exact tsStr_len h1 (by omega) (by omega) h4

theorem sts_no_nl {x : ℚ} (hx : 0 ≤ x) : '\n' ∉ secondsToSRTTime x := by
  rw [secondsToSRTTime_eq x hx]
  intro hm
  rcases tsStr_chars _ hm with h | h | h
  · exact absurd h (by decide)
  · exact absurd h (by decide)
  · exact absurd h (by decide)

theorem natToStr_no_nl (n : ℕ) : '\n' ∉ natToStr n := fun hm =>
  absurd (natToStr_digits n _ hm) (by decide)

theorem tsLine_no_nl {a b : ℚ} (ha : 0 ≤ a) (hb : 0 ≤ b) :
    '\n' ∉ secondsToSRTTime a ++ s2l " --> " ++ secondsToSRTTime b := by
  intro hm
  rcases List.mem_append.1 hm with h | h
  · rcases List.mem_append.1 h with h2 | h2
    · exact sts_no_nl ha h2
    · exact absurd h2 (by decide)
  · exact sts_no_nl hb h

theorem tsHere_build {T1 T2 : Str} (h1 : T1.length = 12) (h2 : T2.length = 12)
    (i1 : isTS12 T1 = true) (i2 : isTS12 T2 = true) :
    tsHere (T1 ++ s2l " --> " ++ T2) = true := by
  have e1 : (T1 ++ s2l " --> " ++ T2).take 12 = T1 := by
    rw [List.append_assoc]
    exact List.take_left' h1
  have e2 : (T1 ++ s2l " --> " ++ T2).drop 12 = s2l " --> " ++ T2 := by
    rw [List.append_assoc]
    exact List.drop_left' h1
  have e3 : (T1 ++ s2l " --> " ++ T2).drop 17 = T2 := by
    refine List.drop_left' ?_
    rw [List.length_append, h1]
    rfl
  rw [tsHere, e1, e2, e3, i1]
  rw [List.take_left' (show (s2l " --> ").length = 5 from rfl)]
  rw [show T2.take 12 = T2 from by rw [← h2]; exact List.take_length _, i2]
  simp

theorem tsMatch_here {l : Str} (hne : l ≠ []) (h : tsHere l = true) :
    tsMatch l = some (l.take 12, (l.drop 17).take 12) := by
  cases l with
  | nil => exact absurd rfl hne
  | cons c rest =>
    unfold tsMatch
    rw [if_pos h]

theorem parseEntry_block {num Z : Str} {a b : ℚ}
    (hnum : '\n' ∉ num) (hZ : '\n' ∉ Z)
    (ha : 0 ≤ a) (halt : a < 360000) (hb : 0 ≤ b) (hblt : b < 360000) :
    parseEntry (num ++ '\n' ::
        ((secondsToSRTTime a ++ s2l " --> " ++ secondsToSRTTime b) ++ '\n' :: Z)) =
      some ⟨msFloor a, msFloor b, trimStr Z⟩ := by
  have hT1len := sts_len ha halt
  have hT2len := sts_len hb hblt
  have hTLnl : '\n' ∉ secondsToSRTTime a ++ s2l " --> " ++ secondsToSRTTime b :=
    tsLine_no_nl ha hb
  have hsplit : splitOnChar '\n' (num ++ '\n' ::
      ((secondsToSRTTime a ++ s2l " --> " ++ secondsToSRTTime b) ++ '\n' :: Z)) =
      [num, secondsToSRTTime a ++ s2l " --> " ++ secondsToSRTTime b, Z] := by
    rw [splitOnChar_append _ hnum, splitOnChar_append _ hTLnl, splitOnChar_not_mem hZ]
  have hmatch : tsMatch (secondsToSRTTime a ++ s2l " --> " ++ secondsToSRTTime b) =
      some (secondsToSRTTime a, secondsToSRTTime b) := by
    have hne : secondsToSRTTime a ++ s2l " --> " ++ secondsToSRTTime b ≠ [] := by
      intro he
      have := congrArg List.length he
      rw [List.length_append, List.length_append, hT1len] at this
      simp at this
    rw [tsMatch_here hne
      (tsHere_build hT1len hT2len (sts_isTS12 ha halt) (sts_isTS12 hb hblt))]
    congr 1
    refine Prod.ext ?_ ?_
    · show (secondsToSRTTime a ++ s2l " --> " ++ secondsToSRTTime b).take 12 =
        secondsToSRTTime a
      rw [List.append_assoc]
      exact List.take_left' hT1len
    · show ((secondsToSRTTime a ++ s2l " --> " ++ secondsToSRTTime b).drop 17).take 12 =
        secondsToSRTTime b
      rw [List.drop_left' (show (secondsToSRTTime a ++ s2l " --> ").length = 17 from by
        rw [List.length_append, hT1len]; rfl)]
      rw [← hT2len]
      exact List.take_length _
  have hc1 : srtTimeToSeconds (secondsToSRTTime a) = some (msFloor a) := codec_msFloor ha
  have hc2 : srtTimeToSeconds (secondsToSRTTime b) = some (msFloor b) := codec_msFloor hb
  simp only [parseEntry]
  rw [hsplit]
  rw [if_pos (by simp)]
  rw [show List.getD [num, secondsToSRTTime a ++ s2l " --> " ++ secondsToSRTTime b, Z] 1 [] =
    secondsToSRTTime a ++ s2l " --> " ++ secondsToSRTTime b from rfl]
  simp only [hmatch, hc1, hc2]
  rw [show List.drop 2 [num, secondsToSRTTime a ++ s2l " --> " ++ secondsToSRTTime b, Z] =
    [Z] from rfl]
  rw [show List.intercalate ['\n'] [Z] = Z from by simp [List.intercalate]]

/-! ## Separator-splitting lemmas -/

theorem noNN_cons_cons {a b : Char} {rest : Str} :
    noNN (a :: b :: rest) = (!(a == '\n' && b == '\n') && noNN (b :: rest)) := rfl

theorem noNN_of_not_mem {l : Str} (h : '\n' ∉ l) : noNN l = true := by
  induction l with
  | nil => rfl
  | cons a rest ih =>
    cases rest with
    | nil => rfl
    | cons b r2 =>
      rw [noNN_cons_cons]
      have ha : a ≠ '\n' := fun he => h (he ▸ List.mem_cons_self _ _)
      rw [ih fun hm => h (List.mem_cons_of_mem _ hm)]
      simp [ha]

theorem noNN_sandwich {A B : Str} (hA : '\n' ∉ A) (hB : noNN B = true)
    (hBh : B.head? ≠ some '\n') : noNN (A ++ '\n' :: B) = true := by
  induction A with
  | nil =>
    rw [List.nil_append]
    cases B with
    | nil => rfl
    | cons b r2 =>
      rw [noNN_cons_cons]
      have hb : b ≠ '\n' := fun he => hBh (by rw [he]; rfl)
      rw [hB]
      simp [hb]
  | cons a A' ih =>
    have ha : a ≠ '\n' := fun he => hA (he ▸ List.mem_cons_self _ _)
    have hA' : '\n' ∉ A' := fun hm => hA (List.mem_cons_of_mem _ hm)
    rw [List.cons_append]
    cases hAe : A' with
    | nil =>
      have htail : noNN ('\n' :: B) = true := by
        have h0 := ih hA'
        rw [hAe, List.nil_append] at h0
        exact h0
      cases B with
      | nil =>
        rw [List.nil_append, noNN_cons_cons, htail]
        simp [ha]
      | cons b r2 =>
        rw [List.nil_append, noNN_cons_cons, htail]
        simp [ha]
    | cons a2 A'' =>
      have htail : noNN (A' ++ '\n' :: B) = true := ih hA'
      rw [hAe] at htail
      rw [List.cons_append, noNN_cons_cons, ← List.cons_append, htail]
      simp [ha]

theorem splitOnNN_sep (rest : Str) :
    splitOnNN ('\n' :: '\n' :: rest) = [] :: splitOnNN rest := by
  rw [show splitOnNN ('\n' :: '\n' :: rest) =
    if '\n' = '\n' ∧ '\n' = '\n' then [] :: splitOnNN rest
    else match splitOnNN ('\n' :: rest) with
      | [] => [['\n']]
      | h :: t => ('\n' :: h) :: t from rfl]
  rw [if_pos ⟨rfl, rfl⟩]

theorem splitOnNN_step {a b : Char} {rest : Str} (h : ¬(a = '\n' ∧ b = '\n'))
    {hd : Str} {tl : List Str} (he : splitOnNN (b :: rest) = hd :: tl) :
    splitOnNN (a :: b :: rest) = (a :: hd) :: tl := by
  rw [show splitOnNN (a :: b :: rest) =
    if a = '\n' ∧ b = '\n' then [] :: splitOnNN rest
    else match splitOnNN (b :: rest) with
      | [] => [[a]]
      | h :: t => (a :: h) :: t from rfl]
  rw [if_neg h, he]

theorem splitOnNN_ne_nil : ∀ (l : Str), splitOnNN l ≠ [] := by
  intro l
  match l with
  | [] => simp [splitOnNN]
  | [c] => simp [splitOnNN]
  | a :: b :: rest =>
    by_cases h : a = '\n' ∧ b = '\n'
    · rw [show splitOnNN (a :: b :: rest) =
        if a = '\n' ∧ b = '\n' then [] :: splitOnNN rest
        else match splitOnNN (b :: rest) with
          | [] => [[a]]
          | h :: t => (a :: h) :: t from rfl]
      rw [if_pos h]
      simp
    · rcases he : splitOnNN (b :: rest) with - | ⟨hd, tl⟩
      · exact absurd he (splitOnNN_ne_nil (b :: rest))
      · rw [splitOnNN_step h he]
        simp

theorem splitOnNN_noNN : ∀ {l : Str}, noNN l = true → splitOnNN l = [l] := by
  intro l
  induction l with
  | nil => intro; rfl
  | cons a rest ih =>
    intro h
    cases rest with
    | nil => rfl
    | cons b r2 =>
      rw [noNN_cons_cons] at h
      have hpair : ¬(a = '\n' ∧ b = '\n') := by
        rintro ⟨rfl, rfl⟩
        simp at h
      have htail : noNN (b :: r2) = true := by
        rcases Bool.and_eq_true_iff.1 h with ⟨-, h2⟩
        exact h2
      rw [splitOnNN_step hpair (ih htail)]

theorem splitOnNN_append {A B : Str} (h1 : noNN A = true) (h2 : A.getLast? ≠ some '\n') :
    splitOnNN (A ++ '\n' :: '\n' :: B) = A :: splitOnNN B := by
  induction A with
  | nil =>
    rw [List.nil_append]
    exact splitOnNN_sep B
  | cons a A' ih =>
    cases hAe : A' with
    | nil =>
      have ha : a ≠ '\n' := by
        rw [hAe] at h2
        intro he
        exact h2 (by rw [he]; rfl)
      rw [List.cons_append, List.nil_append]
      rw [splitOnNN_step (by rintro ⟨rfl, -⟩; exact ha rfl) (splitOnNN_sep B)]
    | cons a2 A'' =>
      have hpair : ¬(a = '\n' ∧ a2 = '\n') := by
        rintro ⟨rfl, rfl⟩
        rw [hAe, noNN_cons_cons] at h1
        simp at h1
      have h1' : noNN A' = true := by
        rw [hAe] at h1 ⊢
        rw [noNN_cons_cons] at h1
        rcases Bool.and_eq_true_iff.1 h1 with ⟨-, ht⟩
        exact ht
      have h2' : A'.getLast? ≠ some '\n' := by
        rw [hAe]
        rw [hAe, List.getLast?_cons_cons] at h2
        exact h2
      have hrec := ih h1' h2'
      rw [hAe] at hrec
      rw [List.cons_append] at hrec
      rw [List.cons_append, List.cons_append]
      rw [splitOnNN_step hpair hrec]

/-! ## Trim decomposition lemmas -/

theorem rtrim_append {A B : Str} (h : rtrim B ≠ []) : rtrim (A ++ B) = A ++ rtrim B := by
  have hne : (B.reverse.dropWhile isWsCh).isEmpty = false := by
    cases hx : B.reverse.dropWhile isWsCh with
    | nil =>
      exact absurd (show rtrim B = [] by rw [rtrim, hx]; rfl) h
    | cons c r => rfl
  rw [rtrim, rtrim, List.reverse_append, List.dropWhile_append, hne]
  simp

theorem rtrim_append_ws {A B : Str} (h : ∀ c ∈ B, isWsCh c = true) :
    rtrim (A ++ B) = rtrim A := by
  have hemp : (B.reverse.dropWhile isWsCh).isEmpty = true := by
    rw [dropWhile_eq_nil_of_forall fun c hc => h c (List.mem_reverse.1 hc)]
    rfl
  rw [rtrim, rtrim, List.reverse_append, List.dropWhile_append, hemp]
  simp

theorem rtrim_rtrim (l : Str) : rtrim (rtrim l) = rtrim l :=
  rtrim_eq_self_last (okLast_rtrim l)

theorem trim_rtrim (l : Str) : trimStr (rtrim l) = trimStr l := by
  unfold trimStr
  rw [rtrim_rtrim]

theorem trim_trim (l : Str) : trimStr (trimStr l) = trimStr l :=
  trim_eq_self_ok (trim_okHead l) (trim_okLast l)

theorem rtrim_ne_nil_of_trim {l : Str} (h : trimStr l ≠ []) : rtrim l ≠ [] := by
  intro he
  apply h
  unfold trimStr
  rw [he]
  rfl

/-! ## Block structure lemmas -/

theorem head?_ne_of_not_mem {l : Str} {x : Char} (h : x ∉ l) : l.head? ≠ some x := by
  cases l with
  | nil => simp
  | cons c r =>
    intro he
    have hc : c = x := by simpa using he
    exact h (hc ▸ List.mem_cons_self _ _)

theorem getLast?_append_right {l₁ l₂ : Str} (h : l₂ ≠ []) :
    (l₁ ++ l₂).getLast? = l₂.getLast? := by
  rw [List.getLast?_append]
  cases hl : l₂.getLast? with
  | none => exact absurd (List.getLast?_eq_none_iff.1 hl) h
  | some c => rfl

theorem getLast?_ne_of_not_mem {l : Str} {x : Char} (h : x ∉ l) : l.getLast? ≠ some x := by
  cases hl : l.getLast? with
  | none => simp
  | some c =>
    intro he
    have hc : c = x := by simpa using he
    subst hc
    apply h
    have hne : l ≠ [] := by
      intro he2
      rw [he2] at hl
      exact absurd hl (by simp)
    have hgl : l.getLast hne = c := by
      have h0 := hl
      rw [List.getLast?_eq_getLast l hne] at h0
      simpa using h0
    rw [← hgl]
    exact List.getLast_mem hne

theorem tsLine_ne_nil (s : Segment) : tsLine s ≠ [] := by
  intro he
  rw [tsLine] at he
  rcases List.append_eq_nil.1 he with ⟨he1, -⟩
  rcases List.append_eq_nil.1 he1 with ⟨-, he2⟩
  exact (by decide : s2l " --> " ≠ []) he2

theorem block_noNN {idx : ℕ} {s : Segment} {Z : Str} (h1 : 0 ≤ s.start) (h2 : 0 ≤ s.endT)
    (hZ : '\n' ∉ Z) :
    noNN (natToStr idx ++ '\n' :: (tsLine s ++ '\n' :: Z)) = true := by
  apply noNN_sandwich (natToStr_no_nl idx)
  · exact noNN_sandwich (show '\n' ∉ tsLine s from tsLine_no_nl h1 h2)
      (noNN_of_not_mem hZ) (head?_ne_of_not_mem hZ)
  · rw [List.head?_append_of_ne_nil _ (tsLine_ne_nil s)]
    exact head?_ne_of_not_mem (show '\n' ∉ tsLine s from tsLine_no_nl h1 h2)

theorem block_getLast {idx : ℕ} {s : Segment} {Z : Str} (hZne : Z ≠ []) (hZ : '\n' ∉ Z) :
    (natToStr idx ++ '\n' :: (tsLine s ++ '\n' :: Z)).getLast? ≠ some '\n' := by
  rw [show natToStr idx ++ '\n' :: (tsLine s ++ '\n' :: Z) =
      (natToStr idx ++ '\n' :: tsLine s ++ ['\n']) ++ Z from by simp]
  rw [getLast?_append_right hZne]
  exact getLast?_ne_of_not_mem hZ

theorem buildContent_cons (s : Segment) (rest : List Segment) (idx : ℕ) :
    buildContent (s :: rest) idx =
      entryBlock idx s ++ '\n' :: '\n' :: buildContent rest (idx + 1) := by
  simp [buildContent, entryBlock, tsLine, List.append_assoc]

theorem blockList_one (s : Segment) (idx : ℕ) :
    blockList [s] idx =
      [natToStr idx ++ '\n' :: (tsLine s ++ '\n' :: rtrim (cleanTextForSRT s.text))] := rfl

theorem blockList_cons₂ (s r : Segment) (rs : List Segment) (idx : ℕ) :
    blockList (s :: r :: rs) idx = entryBlock idx s :: blockList (r :: rs) (idx + 1) := rfl

theorem joinNN_one (b : Str) : joinNN [b] = b := rfl

theorem joinNN_cons {b : Str} {rest : List Str} (h : rest ≠ []) :
    joinNN (b :: rest) = b ++ '\n' :: '\n' :: joinNN rest := by
  cases rest with
  | nil => exact absurd rfl h
  | cons c t => rfl

theorem blockList_ne_nil {segs : List Segment} (idx : ℕ) (h : segs ≠ []) :
    blockList segs idx ≠ [] := by
  cases segs with
  | nil => exact absurd rfl h
  | cons s rest =>
    cases rest with
    | nil => rw [blockList_one]; simp
    | cons r rs => rw [blockList_cons₂]; simp

theorem entryBlock_ne_nil (idx : ℕ) (s : Segment) : entryBlock idx s ≠ [] := by
  intro he
  rw [entryBlock] at he
  rcases List.append_eq_nil.1 he with ⟨h1, -⟩
  exact natToStr_ne_nil idx h1

theorem joinNN_blockList_ne_nil (segs : List Segment) (idx : ℕ) (h : segs ≠ []) :
    joinNN (blockList segs idx) ≠ [] := by
  cases segs with
  | nil => exact absurd rfl h
  | cons s rest =>
    cases rest with
    | nil =>
      rw [blockList_one, joinNN_one]
      intro he
      rcases List.append_eq_nil.1 he with ⟨h1, -⟩
      exact natToStr_ne_nil idx h1
    | cons r rs =>
      rw [blockList_cons₂, joinNN_cons (blockList_ne_nil _ (by simp))]
      intro he
      rcases List.append_eq_nil.1 he with ⟨-, h2⟩
      exact absurd h2 (by simp)

theorem joinNN_blockList_head (segs : List Segment) (idx : ℕ) (h : segs ≠ []) :
    (joinNN (blockList segs idx)).head? = (natToStr idx).head? := by
  cases segs with
  | nil => exact absurd rfl h
  | cons s rest =>
    cases rest with
    | nil =>
      rw [blockList_one, joinNN_one]
      exact List.head?_append_of_ne_nil _ (natToStr_ne_nil idx)
    | cons r rs =>
      rw [blockList_cons₂, joinNN_cons (blockList_ne_nil _ (by simp))]
      rw [List.head?_append_of_ne_nil _ (entryBlock_ne_nil idx s)]
      rw [entryBlock]
      exact List.head?_append_of_ne_nil _ (natToStr_ne_nil idx)

theorem rtrim_buildContent : ∀ (segs : List Segment) (idx : ℕ), segs ≠ [] →
    (∀ s ∈ segs, trimStr (cleanTextForSRT s.text) ≠ []) →
    rtrim (buildContent segs idx) = joinNN (blockList segs idx) := by
  intro segs
  induction segs with
  | nil => exact fun idx h _ => absurd rfl h
  | cons s rest ih =>
    intro idx _ htrim
    have hY : trimStr (cleanTextForSRT s.text) ≠ [] := htrim s (List.mem_cons_self _ _)
    have hrY : rtrim (cleanTextForSRT s.text) ≠ [] := rtrim_ne_nil_of_trim hY
    cases rest with
    | nil =>
      rw [buildContent_cons]
      rw [show buildContent [] (idx + 1) = [] from rfl]
      rw [show entryBlock idx s ++ '\n' :: '\n' :: ([] : Str) =
          entryBlock idx s ++ ['\n', '\n'] from rfl]
      rw [rtrim_append_ws (by decide : ∀ c ∈ ['\n', '\n'], isWsCh c = true)]
      rw [show entryBlock idx s =
          (natToStr idx ++ '\n' :: (tsLine s ++ ['\n'])) ++ cleanTextForSRT s.text from by
        simp [entryBlock]]
      rw [rtrim_append hrY]
      rw [blockList_one, joinNN_one]
      simp
    | cons r rs =>
      rw [buildContent_cons]
      have hrec := ih (idx + 1) (by simp) fun u hu => htrim u (List.mem_cons_of_mem _ hu)
      have hne2 : rtrim (buildContent (r :: rs) (idx + 1)) ≠ [] := by
        rw [hrec]
        exact joinNN_blockList_ne_nil _ _ (by simp)
      rw [show entryBlock idx s ++ '\n' :: '\n' :: buildContent (r :: rs) (idx + 1) =
          (entryBlock idx s ++ ['\n', '\n']) ++ buildContent (r :: rs) (idx + 1) from by
        simp]
      rw [rtrim_append hne2, hrec]
      rw [blockList_cons₂, joinNN_cons (blockList_ne_nil _ (by simp))]
      simp

theorem ltrim_joinNN {segs : List Segment} {idx : ℕ} (h : segs ≠ []) :
    ltrim (joinNN (blockList segs idx)) = joinNN (blockList segs idx) := by
  apply ltrim_eq_self_head
  cases hnum : natToStr idx with
  | nil => exact absurd hnum (natToStr_ne_nil idx)
  | cons c t =>
    have hc : c.isDigit = true := natToStr_digits idx c (hnum ▸ List.mem_cons_self _ _)
    have hh : (joinNN (blockList segs idx)).head? = some c := by
      rw [joinNN_blockList_head segs idx h, hnum]
      rfl
    cases hl : joinNN (blockList segs idx) with
    | nil => rfl
    | cons d r =>
      have hd : d = c := by
        rw [hl] at hh
        simpa using hh
      rw [show okHead (d :: r) = !isWsCh d from rfl, hd, isDigit_not_ws hc]
      rfl

theorem splitOnNN_joinNN : ∀ (segs : List Segment) (idx : ℕ), segs ≠ [] →
    (∀ s ∈ segs, 0 ≤ s.start ∧ s.start < 360000 ∧ 0 ≤ s.endT ∧ s.endT < 360000 ∧
      trimStr (cleanTextForSRT s.text) ≠ []) →
    splitOnNN (joinNN (blockList segs idx)) = blockList segs idx := by
  intro segs
  induction segs with
  | nil => exact fun idx h _ => absurd rfl h
  | cons s rest ih =>
    intro idx _ hgood
    obtain ⟨g1, g2, g3, g4, g5⟩ := hgood s (List.mem_cons_self _ _)
    cases rest with
    | nil =>
      rw [blockList_one, joinNN_one]
      exact splitOnNN_noNN (block_noNN g1 g3
        fun hm => clean_no_nl _ (rtrim_subset _ hm))
    | cons r rs =>
      rw [blockList_cons₂, joinNN_cons (blockList_ne_nil _ (by simp))]
      have hYne : cleanTextForSRT s.text ≠ [] := by
        intro he
        apply g5
        rw [he]
        rfl
      rw [show entryBlock idx s = natToStr idx ++ '\n' ::
          (tsLine s ++ '\n' :: cleanTextForSRT s.text) from rfl]
      rw [splitOnNN_append (block_noNN g1 g3 (clean_no_nl _))
        (block_getLast hYne (clean_no_nl _))]
      rw [ih (idx + 1) (by simp) fun u hu => hgood u (List.mem_cons_of_mem _ hu)]

theorem filterMap_blockList : ∀ (segs : List Segment) (idx : ℕ),
    (∀ s ∈ segs, 0 ≤ s.start ∧ s.start < 360000 ∧ 0 ≤ s.endT ∧ s.endT < 360000 ∧
      trimStr (cleanTextForSRT s.text) ≠ []) →
    (blockList segs idx).filterMap parseEntry =
      segs.map fun s =>
        (⟨msFloor s.start, msFloor s.endT, trimStr (cleanTextForSRT s.text)⟩ : Segment) := by
  intro segs
  induction segs with
  | nil => intro idx _; rfl
  | cons s rest ih =>
    intro idx hgood
    obtain ⟨g1, g2, g3, g4, g5⟩ := hgood s (List.mem_cons_self _ _)
    cases rest with
    | nil =>
      rw [blockList_one]
      have hp : parseEntry (natToStr idx ++ '\n' ::
          (tsLine s ++ '\n' :: rtrim (cleanTextForSRT s.text))) =
          some ⟨msFloor s.start, msFloor s.endT,
            trimStr (rtrim (cleanTextForSRT s.text))⟩ :=
        parseEntry_block (natToStr_no_nl idx)
          (fun hm => clean_no_nl _ (rtrim_subset _ hm)) g1 g2 g3 g4
      simp only [List.filterMap_cons, hp, List.filterMap_nil, trim_rtrim, List.map_cons,
        List.map_nil]
    | cons r rs =>
      rw [blockList_cons₂]
      have hp : parseEntry (entryBlock idx s) =
          some ⟨msFloor s.start, msFloor s.endT, trimStr (cleanTextForSRT s.text)⟩ :=
        parseEntry_block (natToStr_no_nl idx) (clean_no_nl _) g1 g2 g3 g4
      simp only [List.filterMap_cons, hp, List.map_cons]
      rw [ih (idx + 1) fun u hu => hgood u (List.mem_cons_of_mem _ hu)]
      rw [List.map_cons]

/-! ## Chunker lemmas -/

theorem neg_floor_neg (q : ℚ) : -Rat.floor (-q) = ⌈q⌉ := by
  rw [rat_floor_eq, Int.floor_neg, neg_neg]

theorem chunkLoop_pos (S E d : ℚ) (m : ℕ) (words : List Str) (fuel i : ℕ)
    (h : i < words.length) :
    chunkLoop S E d m words (fuel + 1) i =
      ⟨S + ((i : ℚ) / (m : ℚ)) * d, min (S + (((i : ℚ) + (m : ℚ)) / (m : ℚ)) * d) E,
        List.intercalate [' '] ((words.drop i).take m), (words.drop i).take m⟩ ::
        chunkLoop S E d m words fuel (i + m) := by
  simp [chunkLoop, h]

theorem chunkLoop_stop (S E d : ℚ) (m : ℕ) (words : List Str) (fuel i : ℕ)
    (h : words.length ≤ i) : chunkLoop S E d m words fuel i = [] := by
  cases fuel <;> simp [chunkLoop, Nat.not_lt.2 h]

theorem cast_mul_div (k m : ℕ) (hm : 0 < m) :
    (((k * m : ℕ) : ℚ) / (m : ℚ)) = (k : ℚ) := by
  push_cast
  exact mul_div_cancel_right₀ _ (Nat.cast_ne_zero.2 hm.ne.symm)

theorem cast_mul_div_succ (k m : ℕ) (hm : 0 < m) :
    ((((k * m : ℕ) : ℚ) + (m : ℚ)) / (m : ℚ)) = (k : ℚ) + 1 := by
  have hm0 : (m : ℚ) ≠ 0 := Nat.cast_ne_zero.2 hm.ne.symm
  push_cast
  field_simp
  ring

theorem chunkLoop_flatten (S E d : ℚ) (m : ℕ) (words : List Str) (hm : 0 < m) :
    ∀ fuel i, words.length ≤ i + fuel * m →
      (chunkLoop S E d m words fuel i).flatMap (·.words) = words.drop i := by
  intro fuel
  induction fuel with
  | zero =>
    intro i hW
    rw [chunkLoop_stop S E d m words 0 i (by omega)]
    exact (List.drop_eq_nil_of_le (by omega)).symm
  | succ f ih =>
    intro i hW
    have hfm : (f + 1) * m = f * m + m := by ring
    by_cases h : i < words.length
    · rw [chunkLoop_pos S E d m words f i h]
      rw [List.flatMap_cons, ih (i + m) (by omega)]
      rw [← List.drop_drop, List.take_append_drop]
    · rw [chunkLoop_stop S E d m words (f + 1) i (by omega)]
      exact (List.drop_eq_nil_of_le (by omega)).symm

theorem chunkLoop_spec (S E d : ℚ) (m : ℕ) (words : List Str) (c : ℤ)
    (hm : 0 < m) (hd : 0 < d) (hcd : (c : ℚ) * d = E - S)
    (hcc : ∀ k : ℕ, k * m < words.length ↔ (k : ℤ) < c) :
    ∀ fuel k, k * m < words.length → words.length ≤ k * m + fuel * m →
      (chunkLoop S E d m words fuel (k * m)).head?.map (·.start) = some (S + (k : ℚ) * d) ∧
      ((chunkLoop S E d m words fuel (k * m)).getLast?).map (·.endT) = some E ∧
      List.Chain' (fun a b => a.endT = b.start) (chunkLoop S E d m words fuel (k * m)) ∧
      ∀ ch ∈ chunkLoop S E d m words fuel (k * m), ch.start < ch.endT := by
  intro fuel
  induction fuel with
  | zero => intro k hk hW; omega
  | succ f ih =>
    intro k hk hW
    have hkc : (k : ℤ) < c := (hcc k).1 hk
    have hstart : S + ((k : ℚ) * d) < S + ((k : ℚ) + 1) * d := by
      have : (k : ℚ) * d < ((k : ℚ) + 1) * d := by nlinarith
      linarith
    have hlt_end : S + (k : ℚ) * d < E := by
      have hkq : (k : ℚ) ≤ (c : ℚ) - 1 := by
        have : (k : ℤ) ≤ c - 1 := by omega
        exact_mod_cast this
      nlinarith
    have hself : ((k * m : ℕ) : ℚ) / (m : ℚ) = (k : ℚ) := cast_mul_div k m hm
    have hsucc : (((k * m : ℕ) : ℚ) + (m : ℚ)) / (m : ℚ) = (k : ℚ) + 1 :=
      cast_mul_div_succ k m hm
    rw [chunkLoop_pos S E d m words f _ hk, hself, hsucc]
    have hstep : k * m + m = (k + 1) * m := by ring
    have hfm : (f + 1) * m = f * m + m := by ring
    by_cases hnext : (k + 1) * m < words.length
    · have hk1c : ((k : ℤ) + 1) < c := by exact_mod_cast (hcc (k + 1)).1 hnext
      have hmin : min (S + ((k : ℚ) + 1) * d) E = S + ((k : ℚ) + 1) * d := by
        apply min_eq_left
        have : ((k : ℚ) + 1) ≤ (c : ℚ) := by exact_mod_cast hk1c.le
        nlinarith
      obtain ⟨ihh, ihl, ihc, ihlt⟩ := ih (k + 1) hnext (by omega)
      rw [hstep]
      rcases hcons : chunkLoop S E d m words f ((k + 1) * m) with - | ⟨hch, tch⟩
      · rw [hcons] at ihh; exact absurd ihh (by simp)
      · rw [hcons] at ihh ihl ihc ihlt
        have hhead : hch.start = S + ((k : ℚ) + 1) * d := by
          simpa using ihh
        refine ⟨by simp, ?_, ?_, ?_⟩
        · rw [List.getLast?_cons_cons]
          exact ihl
        · rw [List.chain'_cons]
          exact ⟨by simp [hmin, hhead], ihc⟩
        · intro ch hch2
          rcases List.mem_cons.1 hch2 with rfl | hmem
          · simp only
            rw [hmin]
            exact hstart
          · exact ihlt ch hmem
    · have hc1 : c ≤ (k : ℤ) + 1 := by
        by_contra hcon
        exact hnext ((hcc (k + 1)).2 (by omega))
      have hmin : min (S + ((k : ℚ) + 1) * d) E = E := by
        apply min_eq_right
        have : (c : ℚ) ≤ (k : ℚ) + 1 := by exact_mod_cast hc1
        nlinarith
      rw [hstep, chunkLoop_stop S E d m words f _ (by omega)]
      refine ⟨by simp, by simp [hmin], by simp, ?_⟩
      intro ch hch2
      rcases List.mem_cons.1 hch2 with rfl | hmem
      · simp only
        rw [hmin]
        exact hlt_end
      · simp at hmem

/-- Claim C1: for every segment with non-empty text and `end > start` and
every positive word limit `m`, the chunks are emitted in word order (their
word lists concatenate back to the split word list), the first chunk
starts exactly at `segment.start`, consecutive chunks meet exactly (no gap
and no overlap), every chunk has positive width, and the last chunk's end
is exactly `segment.end`. -/
theorem chunk_cover (seg : Segment) (m : ℕ) (htext : seg.text ≠ [])
    (hse : seg.start < seg.endT) (hm : 0 < m) :
    chunkSegmentGen m seg ≠ [] ∧
      (chunkSegmentGen m seg).head?.map (·.start) = some seg.start ∧
      ((chunkSegmentGen m seg).getLast?).map (·.endT) = some seg.endT ∧
      List.Chain' (fun a b => a.endT = b.start) (chunkSegmentGen m seg) ∧
      (∀ ch ∈ chunkSegmentGen m seg, ch.start < ch.endT) ∧
      (chunkSegmentGen m seg).flatMap (·.words) = splitOnChar ' ' seg.text := by
  have hWpos : 0 < (splitOnChar ' ' seg.text).length :=
    List.length_pos.2 (splitOnChar_ne_nil ' ' seg.text)
  set words := splitOnChar ' ' seg.text with hwords
  set W := words.length with hW
  have hceil : -Rat.floor (-((W : ℚ) / (m : ℚ))) = ⌈(W : ℚ) / (m : ℚ)⌉ :=
    neg_floor_neg _
  set c : ℤ := ⌈(W : ℚ) / (m : ℚ)⌉ with hc
  have hmq : (0 : ℚ) < (m : ℚ) := Nat.cast_pos.2 hm
  have hcpos : 0 < c := Int.ceil_pos.2 (div_pos (Nat.cast_pos.2 hWpos) hmq)
  have hcq : (0 : ℚ) < (c : ℚ) := Int.cast_pos.2 hcpos
  have hcc : ∀ k : ℕ, k * m < W ↔ (k : ℤ) < c := by
    intro k
    rw [hc, Int.lt_ceil, lt_div_iff₀ hmq]
    constructor
    · intro h
      exact_mod_cast Nat.cast_lt.2 h
    · intro h
      exact_mod_cast h
  set d : ℚ := (seg.endT - seg.start) / (c : ℚ) with hdeq
  have hd : 0 < d := div_pos (sub_pos.2 hse) hcq
  have hcd : (c : ℚ) * d = seg.endT - seg.start := by
    rw [hdeq, mul_div_cancel₀ _ hcq.ne.symm]
  have hrun : chunkSegmentGen m seg = chunkLoop seg.start seg.endT d m words W 0 := by
    simp only [chunkSegmentGen]
    rw [← hwords, ← hW, hceil, ← hdeq]
  have hzero : (0 : ℕ) * m = 0 := by ring
  have hfuel : W ≤ 0 * m + W * m := by
    have : W ≤ W * m := Nat.le_mul_of_pos_right W hm
    omega
  obtain ⟨hh, hl, hch, hlt⟩ :=
    chunkLoop_spec seg.start seg.endT d m words c hm hd hcd hcc W 0 (by omega) hfuel
  rw [hzero] at hh hl hch hlt
  refine ⟨?_, ?_, ?_, ?_, ?_, ?_⟩
  · rw [hrun]
    intro hnil
    rw [hnil] at hh
    exact absurd hh (by simp)
  · rw [hrun]
    simpa using hh
  · rw [hrun]
    exact hl
  · rw [hrun]
    exact hch
  · rw [hrun]
    exact hlt
  · rw [hrun]
    simpa using chunkLoop_flatten seg.start seg.endT d m words hm W 0 (by omega)

/-- Claim C1, witness at the concrete eight-word segment `[0, 12]` with
the source's word limit 6. -/
theorem chunk_cover_witness :
    (s2l "one two three four five six seven eight" ≠ []) ∧ ((0 : ℚ) < 12) ∧ (0 < 6) ∧
      (chunkSegmentGen 6 ⟨0, 12, s2l "one two three four five six seven eight"⟩ ≠ [] ∧
        (chunkSegmentGen 6 ⟨0, 12, s2l "one two three four five six seven eight"⟩).head?.map
          (·.start) = some (0 : ℚ) ∧
        ((chunkSegmentGen 6 ⟨0, 12, s2l "one two three four five six seven eight"⟩).getLast?).map
          (·.endT) = some (12 : ℚ) ∧
        List.Chain' (fun a b => a.endT = b.start)
          (chunkSegmentGen 6 ⟨0, 12, s2l "one two three four five six seven eight"⟩) ∧
        (∀ ch ∈ chunkSegmentGen 6 ⟨0, 12, s2l "one two three four five six seven eight"⟩,
          ch.start < ch.endT) ∧
        (chunkSegmentGen 6 ⟨0, 12, s2l "one two three four five six seven eight"⟩).flatMap
          (·.words) = splitOnChar ' ' (s2l "one two three four five six seven eight")) :=
  ⟨by decide, by decide, by decide,
    chunk_cover ⟨0, 12, s2l "one two three four five six seven eight"⟩ 6
      (by decide) (by decide) (by decide)⟩

/-- Claim C3, witness at `x = 7/2`. -/
theorem time_roundtrip_witness :
    (0 : ℚ) ≤ 7 / 2 ∧
      (srtTimeToSeconds (secondsToSRTTime (7 / 2)) = some (msFloor (7 / 2)) ∧
        msFloor (7 / 2) ≤ 7 / 2 ∧ (7 : ℚ) / 2 - msFloor (7 / 2) < 1 / 1000) :=
  ⟨by decide, time_roundtrip (7 / 2) (by decide)⟩

/-! ## Claims -/

/-- Claim C5, counterexample: the string `"1:2:3,4"` does not match the
spec's timestamp pattern, yet `srtTimeToSeconds` does not fail on it — it
returns the plain number `3723.004`.  (`srtTimeToSeconds` performs no
format validation at all.) -/
theorem fromTimestamp_nofail_cex :
    specTimestampPattern (s2l "1:2:3,4") = false ∧
      srtTimeToSeconds (s2l "1:2:3,4") = some (3723 + 4 / 1000) := by
  constructor <;> decide

/-- Claim C5, amended: `srtTimeToSeconds` performs no format validation
and never raises; on a non-matching but numeric-fielded string such as
`"1:2:3,4"` it returns an ordinary number, and on a string with
non-numeric fields such as `"bad"` it returns `NaN` (modelled `none`)
rather than a `FormatError`.  The pattern is enforced only by the caller
`parseSRTContent`. -/
theorem fromTimestamp_no_validation :
    srtTimeToSeconds (s2l "bad") = none ∧
      srtTimeToSeconds (s2l "1:2:3,4") = some (3723 + 4 / 1000) ∧
      specTimestampPattern (s2l "1:2:3,4") = false := by
  refine ⟨by decide, by decide, by decide⟩

/-- Claim C6, counterexample: on non-empty, non-whitespace content with no
well-formed entry, `parseSRTContent` does not fail with a `FormatError` —
it returns the empty list. -/
theorem parse_noerror_cex : parseSRTContent (s2l "garbage") = [] := by decide

/-- Claim C6, amended: `parseSRTContent` has no failure mode: content with
no well-formed entry yields the empty list (the zero-entry condition is
reported by `validateSRT` as the `"No valid subtitle entries found"`
error, not by the parser), and a malformed entry among well-formed ones is
silently skipped. -/
theorem parse_lenient_amended :
    parseSRTContent (s2l "garbage") = [] ∧
      validateSRT (s2l "garbage") =
        ⟨false, [s2l "No valid subtitle entries found"]⟩ ∧
      parseSRTContent (s2l "nonsense\n\n1\n00:00:01,000 --> 00:00:02,000\nHi") =
        [⟨1, 2, s2l "Hi"⟩] := by
  refine ⟨by decide, by decide, by decide⟩

/-- Claim C7, counterexample: at a zero-width chunk the update stores
`NaN` (`0/0` propagated through `Math.floor` and `Math.min`), not
`wordCount - 1 = 1`. -/
theorem zero_width_nan_cex :
    (trackerUpdate [⟨1, 1, s2l "a b", [s2l "a", s2l "b"]⟩] 1).2 = JSN.nan ∧
      JSN.nan ≠ JSN.num 1 := by
  constructor <;> decide

/-- Claim C7, amended: the word-highlight effect has no zero-width guard:
whenever the active chunk has `end = start` (so the matching time equals
both), `segmentProgress` is `0/0 = NaN` and the stored highlighted word
index is `NaN` — not `wordCount - 1`; no exception is raised (the update
is a total function). -/
theorem zero_width_nan (chunks : List SubSeg) (t : ℚ) (c : SubSeg)
    (hf : findActive chunks t = some c) (hz : c.endT = c.start) :
    (trackerUpdate chunks t).2 = JSN.nan := by
  have hp := List.find?_some hf
  have hts : c.start ≤ t ∧ t ≤ c.endT := of_decide_eq_true hp
  have ht : t = c.start := le_antisymm (hz ▸ hts.2) hts.1
  unfold trackerUpdate
  rw [hf]
  simp only [highlightIdx, ht, hz, sub_self]
  simp [jsDivJ, jsMulJ, jsFloorJ, jsMinJ]

/-- Claim C7, witness for the amended theorem at a concrete zero-width
chunk. -/
theorem zero_width_nan_witness :
    findActive [⟨2, 2, s2l "a", [s2l "a"]⟩] 2 = some ⟨2, 2, s2l "a", [s2l "a"]⟩ ∧
      (⟨2, 2, s2l "a", [s2l "a"]⟩ : SubSeg).endT = (⟨2, 2, s2l "a", [s2l "a"]⟩ : SubSeg).start ∧
      (trackerUpdate [⟨2, 2, s2l "a", [s2l "a"]⟩] 2).2 = JSN.nan :=
  ⟨by decide, by decide,
    zero_width_nan [⟨2, 2, s2l "a", [s2l "a"]⟩] 2 ⟨2, 2, s2l "a", [s2l "a"]⟩
      (by decide) (by decide)⟩

/-- Claim C8, counterexample: a segment whose text is empty (hence splits
into zero words according to the claim) does not produce an empty chunk
list — JavaScript's `"".split(' ')` is `[""]`, so exactly one chunk is
produced. -/
theorem chunk_empty_text_cex : (chunkSegment ⟨0, 1, []⟩).length = 1 := by decide

/-- Claim C8, amended: splitting on single spaces never yields zero words
(`"".split(' ')` is `[""]`), so the chunker never returns an empty
sequence; for a segment with empty text it produces exactly one
sub-segment spanning the whole interval whose single word is the empty
string. -/
theorem chunk_empty_text_one (s e : ℚ) :
    chunkSegment ⟨s, e, []⟩ = [⟨s, e, [], [[]]⟩] := by
  have hc : ((-Rat.floor (-(((1 : ℕ) : ℚ) / ((6 : ℕ) : ℚ))) : ℤ) : ℚ) = 1 := by decide
  simp only [chunkSegment, chunkSegmentGen, show splitOnChar ' ' ([] : Str) = [[]] from rfl,
    List.length_cons, List.length_nil, Nat.zero_add, hc, div_one]
  unfold chunkLoop
  norm_num [chunkLoop, List.intercalate, List.intersperse]

/-- Claim C4, counterexample: normalization is not idempotent.  Tags are
stripped only after whitespace is collapsed, so `"a <b>"` normalizes to
`"A "` (with a trailing space left behind by the removed tag), and
normalizing again trims that space, giving `"A"`. -/
theorem normalize_idem_cex :
    cleanTextForSRT (cleanTextForSRT (s2l "a <b>")) ≠ cleanTextForSRT (s2l "a <b>") := by
  decide

/-- Claim C4, amended: `cleanTextForSRT` is idempotent on every input that
contains no `<` character.  With no tag present the pipeline's output is
trimmed, single-spaced, punctuation-glued and capitalized, and each of the
six stages fixes such a string. -/
theorem normalize_idem_tagfree (x : Str) (h : '<' ∉ x) :
    cleanTextForSRT (cleanTextForSRT x) = cleanTextForSRT x := by
  obtain ⟨hws, hww, hwp, hpwl, hhead, hlast, hhnl, hmem⟩ := clean_invariants h
  exact clean_fixed hws hww hwp hpwl hhead hlast hhnl hmem

/-- Claim C4, amended, witness at a concrete tag-free input. -/
theorem normalize_idem_tagfree_witness :
    '<' ∉ s2l "  hello   world.this is x  " ∧
      cleanTextForSRT (cleanTextForSRT (s2l "  hello   world.this is x  ")) =
        cleanTextForSRT (s2l "  hello   world.this is x  ") :=
  ⟨by decide, normalize_idem_tagfree (s2l "  hello   world.this is x  ") (by decide)⟩

/-- Claim C2, counterexample: two lists that are well-formed in the
claim's sense (`start ≥ 0`, `end > start`) whose serialize/parse round
trip loses the entry entirely.  With empty text the serialized entry block
has only two lines, so the parser skips it; with a start time of 100 hours
the hour field has three digits and the strict `\d{2}` timestamp pattern
does not match. -/
theorem srt_roundtrip_cex :
    ((0 : ℚ) ≤ 0 ∧ (0 : ℚ) < 1 ∧
      parseSRTContent (generateSRT [⟨0, 1, []⟩]) = []) ∧
    ((0 : ℚ) ≤ 360000 ∧ (360000 : ℚ) < 360001 ∧
      parseSRTContent (generateSRT [⟨360000, 360001, s2l "a"⟩]) = []) := by
  exact ⟨⟨by decide, by decide, by decide⟩, ⟨by decide, by decide, by decide⟩⟩

/-- Claim C2, amended: `generateSRT []` is the empty string, and for every
segment list whose entries satisfy `0 ≤ start < end < 360000` (the hour
field stays within the two digits the parser's pattern demands) and whose
trimmed normalized text is non-empty, parsing the serialized content
reproduces every entry exactly: the times truncated to millisecond
precision — hence within one millisecond below the originals — and the
text equal to the trimmed normalized text. -/
theorem srt_roundtrip_amended (segs : List Segment)
    (h : ∀ s ∈ segs, 0 ≤ s.start ∧ s.start < s.endT ∧ s.endT < 360000 ∧
      trimStr (cleanTextForSRT s.text) ≠ []) :
    generateSRT [] = [] ∧
    parseSRTContent (generateSRT segs) =
      segs.map (fun s =>
        (⟨msFloor s.start, msFloor s.endT, trimStr (cleanTextForSRT s.text)⟩ : Segment)) ∧
    ∀ s ∈ segs, msFloor s.start ≤ s.start ∧ s.start - msFloor s.start < 1 / 1000 ∧
      msFloor s.endT ≤ s.endT ∧ s.endT - msFloor s.endT < 1 / 1000 := by
  refine ⟨rfl, ?_, fun s _ => ⟨msFloor_le _, msFloor_close _, msFloor_le _, msFloor_close _⟩⟩
  have hgood : ∀ s ∈ segs, 0 ≤ s.start ∧ s.start < 360000 ∧ 0 ≤ s.endT ∧ s.endT < 360000 ∧
      trimStr (cleanTextForSRT s.text) ≠ [] := by
    intro s hs
    obtain ⟨g1, g2, g3, g4⟩ := h s hs
    exact ⟨g1, by linarith, by linarith, g3, g4⟩
  cases segs with
  | nil => decide
  | cons s0 rest =>
    have hne : (s0 :: rest : List Segment) ≠ [] := by simp
    have htr : ∀ u ∈ s0 :: rest, trimStr (cleanTextForSRT u.text) ≠ [] := fun u hu =>
      (hgood u hu).2.2.2.2
    rw [show generateSRT (s0 :: rest) = trimStr (buildContent (s0 :: rest) 1) from by
      simp [generateSRT]]
    simp only [parseSRTContent]
    rw [trim_trim]
    rw [show trimStr (buildContent (s0 :: rest) 1) =
        ltrim (rtrim (buildContent (s0 :: rest) 1)) from rfl]
    rw [rtrim_buildContent _ 1 hne htr, ltrim_joinNN hne, splitOnNN_joinNN _ 1 hne hgood,
      filterMap_blockList _ 1 hgood]

/-- Claim C2, amended, witness at the one-entry list `[⟨0, 1, "hi"⟩]`. -/
theorem srt_roundtrip_amended_witness :
    (∀ s ∈ [(⟨0, 1, s2l "hi"⟩ : Segment)], 0 ≤ s.start ∧ s.start < s.endT ∧
      s.endT < 360000 ∧ trimStr (cleanTextForSRT s.text) ≠ []) ∧
    (generateSRT [] = [] ∧
      parseSRTContent (generateSRT [(⟨0, 1, s2l "hi"⟩ : Segment)]) =
        [(⟨0, 1, s2l "hi"⟩ : Segment)].map (fun s =>
          (⟨msFloor s.start, msFloor s.endT, trimStr (cleanTextForSRT s.text)⟩ : Segment)) ∧
      ∀ s ∈ [(⟨0, 1, s2l "hi"⟩ : Segment)], msFloor s.start ≤ s.start ∧
        s.start - msFloor s.start < 1 / 1000 ∧ msFloor s.endT ≤ s.endT ∧
        s.endT - msFloor s.endT < 1 / 1000) :=
  ⟨by decide, srt_roundtrip_amended [(⟨0, 1, s2l "hi"⟩ : Segment)] (by decide)⟩

/-- Claim C9, counterexample: the error message produced for empty content
is `"SRT content is empty or invalid"`, not the claimed
`"content is empty or invalid"`. -/
theorem validate_empty_msg_cex :
    (validateSRT []).errors ≠ [s2l "content is empty or invalid"] := by decide

/-- Claim C9, amended: `validateSRT` on the empty string returns invalid
with exactly one error, whose exact text is
`"SRT content is empty or invalid"`. -/
theorem validate_empty_msg :
    validateSRT [] = ⟨false, [s2l "SRT content is empty or invalid"]⟩ := by decide

/-- Claim C10: on any argument that is not an array (null, undefined, or
any other non-array value), `generateSRT` returns the empty string and
`generateRemotionCaptions` returns the empty list; both are total
functions, so neither raises. -/
theorem non_array_inputs (v : JSValue) (h : isArray v = false) :
    generateSRTJS v = [] ∧ generateRemotionCaptionsJS v = [] := by
  cases v <;> simp_all [isArray, generateSRTJS, generateRemotionCaptionsJS]

/-- Claim C10, witness at the concrete input `null`. -/
theorem non_array_inputs_witness :
    isArray JSValue.jsNull = false ∧
      (generateSRTJS JSValue.jsNull = [] ∧ generateRemotionCaptionsJS JSValue.jsNull = []) :=
  ⟨by decide, non_array_inputs JSValue.jsNull (by decide)⟩

end Core

end Simora
